import Mathlib

/-!
# Verification of the Stonehenge game and its minimax strategies

This file is a shallow embedding, in Lean 4, of the two source modules of the
repository:

* `stonehenge.py` — the `StonehengeGame` / `StonehengeState` classes: board
  construction, move enumeration, move application with ley-line capture,
  terminal detection, winner test and the `rough_outcome` heuristic;
* `strategy.py` — the recursive minimax evaluator (`minimax_recursive`,
  `max_score`) and the explicit-stack iterative evaluator
  (`minimax_iterative`, with its `Stack` and `Tree` helpers).

Modelling conventions:

* Python lists and dicts with integer keys `0..N` (iterated in insertion
  order) become Lean `List`s in the same order.
* A ley-line `['n', [cells]]` becomes a `Region` structure; cell entries are
  the Python strings: a capital-letter label while unclaimed, `"1"` / `"2"`
  once claimed.
* In-place mutation (`move_to_board` mutating the score list and the region)
  becomes explicit state passing; the deep-copy-then-mutate discipline of
  `make_move` is additionally modelled on an explicit heap further below.
* Machine integers are `Nat` / `Int`; the real-division comparisons
  `score >= 3*(N+1)/2` and `count >= len/2` are rendered with the exact
  integer equivalents `3*(N+1) <= 2*score` and `len <= 2*count`.
* Fallible operations (Python exceptions: string indexing out of range,
  `dict` `KeyError`, `max` of an empty list) return `Option`.
* The unbounded recursion of `max_score` and the unbounded `while` loop of
  `minimax_iterative` are rendered with an explicit fuel parameter; fuel
  sufficiency and fuel invariance are proved, so the fuelled functions agree
  with the source semantics wherever the source terminates.
-/

/-- One ley-line of the board: the Python list `[status, cells]` where
`status` is `'n'` (uncaptured), `'1'` or `'2'`, and `cells` holds either the
cell's capital-letter label or `'1'`/`'2'` once the cell is claimed. -/
structure Region where
  status : String
  cells : List String
deriving DecidableEq, Repr

/-- The state of a stonehenge game: `StonehengeState.__init__`.  The board
dict `{'rows': …, 'left': …, 'right': …}` is split into the three region
lists; `scores` is split into `p1_score`, `p2_score`; `p1_turn` comes from
the `GameState` base class. -/
structure StonehengeState where
  p1_turn : Bool
  rows : List Region
  left : List Region
  right : List Region
  p1_score : Nat
  p2_score : Nat
  length : Nat
deriving DecidableEq, Repr

/-- A cell entry is unclaimed when it is neither `'1'` nor `'2'`
(`cell != '1' and cell != '2'` in `get_possible_moves`). -/
def unclaimedB (c : String) : Bool := !(c == "1") && !(c == "2")

/-- `StonehengeGame.is_over`: `p1_score >= 3*(length+1)/2 or p2_score >= …`,
with the real division rendered exactly over integers. -/
def is_over (len : Nat) (s : StonehengeState) : Bool :=
  decide (3 * (len + 1) ≤ 2 * s.p1_score) || decide (3 * (len + 1) ≤ 2 * s.p2_score)

/-- `StonehengeState.get_possible_moves`: empty once either score reaches
half the ley-lines (computed from the state's own `length`), else every
unclaimed cell of every row, in row-major left-to-right order. -/
def get_possible_moves (s : StonehengeState) : List String :=
  if 3 * (s.length + 1) ≤ 2 * s.p1_score ∨ 3 * (s.length + 1) ≤ 2 * s.p2_score then []
  else (s.rows.map (fun r => r.cells.filter unclaimedB)).flatten

/-- Modelled from the spec: `GameState.get_current_player_name` of the
absent base module `game_state.py` — `'p1'` when it is player 1's turn,
`'p2'` otherwise. -/
def get_current_player_name (s : StonehengeState) : String :=
  if s.p1_turn then "p1" else "p2"

/-- `StonehengeGame.is_winner` with the game's `current_state` passed
explicitly: when the game is over, the winner is the player whose name
differs from the current player's. -/
def is_winner (len : Nat) (s : StonehengeState) (player : String) : Bool :=
  if is_over len s then decide (get_current_player_name s ≠ player) else false

/-- The loop body of `StonehengeState.move_to_board`, processing the cells
of one region left to right.  `done` is the already-processed front of the
cell list, `rest` the cells still to scan, `st` the region's current capture
status, `sc` the running `(p1_score, p2_score)`.  A cell equal to `move` is
replaced by `cur`; immediately afterwards the capture test
`states[0] == 'n' and states[1].count(cur) >= len(states[1]) / 2` is run on
the whole (partially updated) cell list. -/
def mtbAux (move cur : String) : List String → List String → String → Nat × Nat →
    String × List String × (Nat × Nat)
  | done, [], st, sc => (st, done, sc)
  | done, c :: rest, st, sc =>
    if c = move then
      if st = "n" ∧ (done ++ [cur] ++ rest).length ≤ 2 * ((done ++ [cur] ++ rest).count cur) ∧
          cur = "2" then
        mtbAux move cur (done ++ [cur]) rest "2" (sc.1, sc.2 + 1)
      else if st = "n" ∧ (done ++ [cur] ++ rest).length ≤ 2 * ((done ++ [cur] ++ rest).count cur) then
        mtbAux move cur (done ++ [cur]) rest "1" (sc.1 + 1, sc.2)
      else
        mtbAux move cur (done ++ [cur]) rest st sc
    else
      mtbAux move cur (done ++ [c]) rest st sc

/-- `StonehengeState.move_to_board`: capture `move`'s cell in the region for
`cur`, capturing the region (and crediting one score) when the mover then
owns at least half its cells.  The Python in-place mutation of the region
and the score list becomes a returned pair. -/
def move_to_board (sc : Nat × Nat) (r : Region) (move cur : String) :
    Region × (Nat × Nat) :=
  match mtbAux move cur [] r.cells r.status sc with
  | (st, cells, sc') => (⟨st, cells⟩, sc')

/-- The inner loops of `StonehengeState.make_move`: apply `move_to_board` to
every region of one collection in order, threading the score pair. -/
def applyLines (sc : Nat × Nat) (rs : List Region) (move cur : String) :
    (Nat × Nat) × List Region :=
  match rs with
  | [] => (sc, [])
  | r :: rest =>
    match move_to_board sc r move cur with
    | (r', sc') =>
      match applyLines sc' rest move cur with
      | (sc'', rest') => (sc'', r' :: rest')

/-- `StonehengeState.make_move`: deep-copy the board, replay
`move_to_board` over every region of `rows`, `left`, `right` (the dict's
insertion order), and build the successor state with the turn flipped
(`cur_player == '2'`). -/
def make_move (s : StonehengeState) (move : String) : StonehengeState :=
  let cur := if s.p1_turn then "1" else "2"
  match applyLines (s.p1_score, s.p2_score) s.rows move cur with
  | (sc1, rows') =>
    match applyLines sc1 s.left move cur with
    | (sc2, left') =>
      match applyLines sc2 s.right move cur with
      | (sc3, right') =>
        ⟨cur == "2", rows', left', right', sc3.1, sc3.2, s.length⟩

/-- The alphabet `'ABCDEFGHIJKLMNOPQRSTUVWXYZ'` of `StonehengeGame.__init__`
as a list of one-character cell labels. -/
def lettersList : List String :=
  ["A", "B", "C", "D", "E", "F", "G", "H", "I", "J", "K", "L", "M",
   "N", "O", "P", "Q", "R", "S", "T", "U", "V", "W", "X", "Y", "Z"]

/-- The row-building loop of `StonehengeGame.__init__`: `k` rows remain to
build, `nc` is `num_cells`, `il` is `index_letter`.  Running out of letters
(a Python `IndexError`) yields `none`. -/
def buildRows (N : Nat) : Nat → Nat → Nat → Option (List (List String))
  | 0, _, _ => some []
  | k + 1, nc, il =>
    if il + nc ≤ 26 then
      (buildRows N k (if nc > N then nc - 1 else nc + 1) (il + nc)).map
        (fun rest => ((lettersList.drop il).take nc) :: rest)
    else none

/-- The first `down_left` loop: `down_left[i]` collects `rows[l][1][i]` for
`l < N` whenever row `l` is long enough. -/
def downLeftInit (rows : List (List String)) (N : Nat) : List (List String) :=
  (List.range (N + 1)).map
    (fun i => (List.range N).filterMap (fun l => rows[l]? >>= fun row => row[i]?))

/-- The first `down_right` loop: `down_right[i]` collects `rows[l][1][-1-i]`
for `l < N` whenever row `l` is long enough. -/
def downRightInit (rows : List (List String)) (N : Nat) : List (List String) :=
  (List.range (N + 1)).map
    (fun i => (List.range N).filterMap
      (fun l => rows[l]? >>= fun row =>
        if i < row.length then row[row.length - 1 - i]? else none))

/-- Append one cell to the diagonal at (integer) index `i`; a missing index
is a Python `KeyError`, hence `none`. -/
def appendAt (ls : List (List String)) (i : Int) (c : String) :
    Option (List (List String)) :=
  if h : 0 ≤ i ∧ i.toNat < ls.length then
    some (ls.set i.toNat (ls.get ⟨i.toNat, h.2⟩ ++ [c]))
  else none

/-- The bottom-row append loop for `down_left`: indices count up from 1. -/
def appendLoopUp : List (List String) → List String → Int → Option (List (List String))
  | ls, [], _ => some ls
  | ls, c :: cs, i => (appendAt ls i c).bind (fun ls' => appendLoopUp ls' cs (i + 1))

/-- The bottom-row append loop for `down_right`: indices count down from `N`. -/
def appendLoopDown : List (List String) → List String → Int → Option (List (List String))
  | ls, [], _ => some ls
  | ls, c :: cs, i => (appendAt ls i c).bind (fun ls' => appendLoopDown ls' cs (i - 1))

/-- `StonehengeGame.__init__` for side length `N` (the `input()` call made a
parameter): build rows, the two diagonal families, and the fresh
`StonehengeState` with scores `[0, 0]`.  Any Python exception during
construction is `none`. -/
def mkStonehengeGame (isP1 : Bool) (N : Nat) : Option StonehengeState := do
  let rows ← buildRows N (N + 1) 2 0
  let bottom ← rows[N]?
  let left ← appendLoopUp (downLeftInit rows N) bottom 1
  let right ← appendLoopDown (downRightInit rows N) bottom (N : Int)
  some ⟨isP1, rows.map (fun cs => ⟨"n", cs⟩), left.map (fun cs => ⟨"n", cs⟩),
        right.map (fun cs => ⟨"n", cs⟩), 0, 0, N⟩

/-- The states reachable in a game of side length `N`: the freshly
constructed state, closed under applying legal moves. -/
inductive Reachable (N : Nat) : StonehengeState → Prop
  | init (isP1 : Bool) (s : StonehengeState) :
      mkStonehengeGame isP1 N = some s → Reachable N s
  | step (s : StonehengeState) (m : String) :
      Reachable N s → m ∈ get_possible_moves s → Reachable N (make_move s m)

/-- Evaluate a Python list comprehension whose body may raise: apply `f`
left to right, propagating the first failure. -/
def mapO {α β : Type} (f : α → Option β) : List α → Option (List β)
  | [] => some []
  | a :: l => (f a).bind (fun b => (mapO f l).map (fun bs => b :: bs))

/-- Modelled from the spec: the outcome constant `GameState.WIN` (+1) of the
absent base module `game_state.py`. -/
def WIN : Int := 1

/-- Modelled from the spec: the outcome constant `GameState.LOSE` (-1) of
the absent base module `game_state.py`. -/
def LOSE : Int := -1

/-- Modelled from the spec: the outcome constant `GameState.DRAW` (0) of
the absent base module `game_state.py`. -/
def DRAW : Int := 0

/-- The number of unclaimed cells on the rows of the board.  Each legal move
claims at least one of them, so this measures the remaining game length; it
is the fuel bound used for the source's unbounded recursions. -/
def countUnclaimed (s : StonehengeState) : Nat :=
  ((s.rows.map Region.cells).flatten.filter unclaimedB).length

/-- The terminal branch of `max_score` (`strategy.py`, lines 158-170): the
score of an over state from the perspective of its player to move.
`game.current_state = state` has already been replayed, so `is_winner`
reads `state` itself. -/
def termScore (len : Nat) (s : StonehengeState) : Int :=
  if s.p1_turn then
    if is_winner len s "p1" then 1 else if is_winner len s "p2" then -1 else 0
  else
    if is_winner len s "p2" then 1 else if is_winner len s "p1" then -1 else 0

/-- The terminal branch of `minimax_iterative` (`strategy.py`, lines
190-199), with its differently ordered tests including the explicit draw
test `not (is_winner('p1') or is_winner('p2'))`. -/
def termScoreIter (len : Nat) (s : StonehengeState) : Int :=
  if !(is_winner len s "p1" || is_winner len s "p2") then 0
  else if s.p1_turn && is_winner len s "p1" then 1
  else if s.p1_turn && is_winner len s "p2" then -1
  else if !s.p1_turn && is_winner len s "p2" then 1
  else -1

/-- `max_score` of `strategy.py`, with an explicit fuel parameter standing
for the call stack (the recursion always terminates; fuel
`countUnclaimed s + 1` suffices, see `max_score_stable`).  At an over state
the terminal score; otherwise `max([-1 * max_score(child) for …])`, where
Python's `max` of an empty list raises — hence `List.max?`. -/
def max_score : Nat → Nat → StonehengeState → Option Int
  | 0, _, _ => none
  | fuel + 1, len, s =>
    if is_over len s then some (termScore len s)
    else
      (mapO (fun x => (max_score fuel len (make_move s x)).map (fun v => -1 * v))
        (get_possible_moves s)).bind List.max?

/-- `max_score` at its canonical, always-sufficient fuel. -/
def max_scoreC (len : Nat) (s : StonehengeState) : Option Int :=
  max_score (countUnclaimed s + 1) len s

/-- `minimax_recursive` of `strategy.py`: score every legal move by
`-1 * max_score(make_move(x))`, then return the move at the first index of
the maximal score (`scores.index(max(scores))`).  The scratch mutation of
`game.current_state` (restored before returning) is modelled by explicit
state passing. -/
def minimax_recursive (len : Nat) (s : StonehengeState) : Option String :=
  (mapO (fun x => (max_scoreC len (make_move s x)).map (fun v => -1 * v))
    (get_possible_moves s)).bind
    (fun scores => scores.max?.bind
      (fun mx => (get_possible_moves s)[scores.indexOf mx]?))

/-- The value recurrence exactly as the specification words it:
`value(state) = -1 * max over moves m of value(make_move(state, m))` for
non-terminal states, with the shared terminal scoring rule at terminal
states.  This is a second definition following the spec's words, to be
compared with `max_score`, which the source defines as
`max over m of (-1 * value(child))`. -/
def specValue : Nat → Nat → StonehengeState → Option Int
  | 0, _, _ => none
  | fuel + 1, len, s =>
    if is_over len s then some (termScore len s)
    else
      (mapO (fun x => specValue fuel len (make_move s x)) (get_possible_moves s)).bind
        (fun cs => cs.max?.map (fun v => -1 * v))

/-- `specValue` at its canonical, always-sufficient fuel. -/
def specValueC (len : Nat) (s : StonehengeState) : Option Int :=
  specValue (countUnclaimed s + 1) len s

/-- The loop of `StonehengeState.rough_outcome` over the possible moves,
with `ow` the running `other_win` flag.  A move whose successor crosses the
score threshold returns `WIN` at once; a move all of whose replies stay
below the threshold clears `other_win`. -/
def roLoop (s : StonehengeState) : List String → Bool → Int
  | [], ow => if ow then LOSE else DRAW
  | mv :: rest, ow =>
    let st := make_move s mv
    if 3 * (s.length + 1) ≤ 2 * st.p1_score ∨ 3 * (s.length + 1) ≤ 2 * st.p2_score then WIN
    else if (get_possible_moves st).all
        (fun x => decide (2 * (make_move st x).p1_score < 3 * (s.length + 1)) &&
                  decide (2 * (make_move st x).p2_score < 3 * (s.length + 1))) then
      roLoop s rest false
    else roLoop s rest ow

/-- `StonehengeState.rough_outcome`: `LOSE` with no legal moves, else the
1-2 ply lookahead loop. -/
def rough_outcome (s : StonehengeState) : Int :=
  if get_possible_moves s = [] then LOSE
  else roLoop s (get_possible_moves s) true

/-- One node of the explicit game tree of `minimax_iterative` (`Tree` in
`strategy.py`): a state, the child nodes (as indices into the node arena,
modelling Python object references), and the settled score (`none` while
unset, as Python's `None`). -/
structure Node where
  value : StonehengeState
  children : List Nat
  score : Option Int
deriving DecidableEq, Repr

/-- The machine state of `minimax_iterative`'s `while` loop: the arena of
allocated `Tree` nodes (index 0 is the root) and the LIFO stack of node
references, head on top. -/
structure Machine where
  nodes : List Node
  stack : List Nat
deriving DecidableEq, Repr

/-- One iteration of `minimax_iterative`'s `while` loop: pop a node; settle
an over node with the terminal scoring rule; expand a childless node (one
child per legal move, re-push the node, then push the children so they are
popped first); otherwise settle the score as
`max([-1 * x.score for x in children] + [-1])`.  `none` models a Python
exception (a dangling reference or an unset child score). -/
def step (len : Nat) (m : Machine) : Option Machine :=
  match m.stack with
  | [] => none
  | t :: rest =>
    (m.nodes[t]?).bind (fun nd =>
      if is_over len nd.value then
        some ⟨m.nodes.set t ⟨nd.value, nd.children, some (termScoreIter len nd.value)⟩, rest⟩
      else if nd.children = [] then
        let mvs := get_possible_moves nd.value
        let base := m.nodes.length
        let idxs := (List.range mvs.length).map (fun j => base + j)
        some ⟨(m.nodes.set t ⟨nd.value, idxs, nd.score⟩) ++
                mvs.map (fun mv => ⟨make_move nd.value mv, [], none⟩),
              idxs.reverse ++ t :: rest⟩
      else
        (mapO (fun c => (m.nodes[c]?).bind Node.score) nd.children).bind (fun cs =>
          some ⟨m.nodes.set t
                  ⟨nd.value, nd.children,
                   some ((((cs.map (fun v => -1 * v)) ++ [-1]).max?).getD 0)⟩,
                rest⟩))

/-- `n` iterations of the loop body, composed in the `Option` monad. -/
def steps : Nat → Nat → Machine → Option Machine
  | 0, _, m => some m
  | n + 1, len, m => (step len m).bind (steps n len)

/-- The `while not process.is_empty()` loop, with fuel: stop successfully
on an empty stack, iterate otherwise. -/
def run : Nat → Nat → Machine → Option Machine
  | 0, _, m => if m.stack = [] then some m else none
  | fuel + 1, len, m =>
    if m.stack = [] then some m else (step len m).bind (run fuel len)

/-- `minimax_iterative` of `strategy.py`: run the explicit-stack machine
from a root holding the current state, then score every root child by
`-1 * child.score` and return the move at the first index of the maximal
score.  Fuel stands for the unbounded `while` loop. -/
def minimax_iterative (fuel len : Nat) (s : StonehengeState) : Option String :=
  (run fuel len ⟨[⟨s, [], none⟩], [0]⟩).bind (fun mach =>
    (mach.nodes[0]?).bind (fun root =>
      (mapO (fun c => (mach.nodes[c]?).bind Node.score) root.children).bind (fun cs =>
        let scores := cs.map (fun v => -1 * v)
        scores.max?.bind
          (fun mx => (get_possible_moves s)[scores.indexOf mx]?))))


/-! ## Characterization of move application -/

/-- The effect of `move_to_board` on a cell list: every cell equal to
`move` is replaced by `cur`. -/
def updCells (move cur : String) (cs : List String) : List String :=
  cs.map (fun c => if c = move then cur else c)

/-- The capture condition of `move_to_board` on one region: the region was
uncaptured, the move matches one of its cells, and after the replacement
the mover owns at least half the cells. -/
def capturesRegion (move cur : String) (r : Region) : Prop :=
  r.status = "n" ∧ move ∈ r.cells ∧
    r.cells.length ≤ 2 * ((updCells move cur r.cells).count cur)

instance (move cur : String) (r : Region) : Decidable (capturesRegion move cur r) := by
  unfold capturesRegion; infer_instance

/-- The region produced by `move_to_board`. -/
def updRegion (move cur : String) (r : Region) : Region :=
  if capturesRegion move cur r then
    ⟨if cur = "2" then "2" else "1", updCells move cur r.cells⟩
  else ⟨r.status, updCells move cur r.cells⟩

/-- The score increment produced by `move_to_board`. -/
def regionDelta (move cur : String) (r : Region) : Nat × Nat :=
  if capturesRegion move cur r then (if cur = "2" then (0, 1) else (1, 0))
  else (0, 0)

/-- The mover's tag: `cur_player` in `make_move`. -/
def curPlayer (s : StonehengeState) : String := if s.p1_turn then "1" else "2"

/-- Componentwise sum of the per-region score increments of one collection. -/
def deltaSum (move cur : String) (rs : List Region) : Nat × Nat :=
  (((rs.map (regionDelta move cur)).map Prod.fst).sum,
   ((rs.map (regionDelta move cur)).map Prod.snd).sum)

/-- All row cells of the board in reading order. -/
def flatRows (s : StonehengeState) : List String := (s.rows.map Region.cells).flatten

/-- A region's capture status is one of the three legal tags. -/
def statusOK (r : Region) : Prop := r.status = "n" ∨ r.status = "1" ∨ r.status = "2"

/-- An uncaptured region is strictly below half ownership for both players
(so emptying it must capture it). -/
def cntOK (r : Region) : Prop :=
  r.status = "n" →
    2 * r.cells.count "1" < r.cells.length ∧ 2 * r.cells.count "2" < r.cells.length

/-- All regions of the board, rows then left then right diagonals. -/
def regionsOf (s : StonehengeState) : List Region := s.rows ++ s.left ++ s.right

/-- The invariant maintained by every reachable state of a side-length-`N`
game: the stored length is `N`; each collection has `N+1` regions; statuses
are legal and uncaptured regions are below half ownership; the scores count
the captured regions; every unclaimed diagonal cell also appears in a row;
and unclaimed row labels are pairwise distinct. -/
def StInv (N : Nat) (s : StonehengeState) : Prop :=
  s.length = N ∧
  s.rows.length = N + 1 ∧ s.left.length = N + 1 ∧ s.right.length = N + 1 ∧
  (∀ r ∈ regionsOf s, statusOK r ∧ cntOK r) ∧
  s.p1_score = ((regionsOf s).filter (fun r => r.status == "1")).length ∧
  s.p2_score = ((regionsOf s).filter (fun r => r.status == "2")).length ∧
  (∀ r ∈ s.left ++ s.right, ∀ c ∈ r.cells, unclaimedB c = true →
    ∃ r' ∈ s.rows, c ∈ r'.cells) ∧
  (∀ c ∈ flatRows s, unclaimedB c = true → (flatRows s).count c ≤ 1)

instance (r : Region) : Decidable (statusOK r) := by unfold statusOK; infer_instance

instance (r : Region) : Decidable (cntOK r) := by unfold cntOK; infer_instance

instance (N : Nat) (s : StonehengeState) : Decidable (StInv N s) := by
  unfold StInv; infer_instance

/-- A decidable wrapper: the predicate holds of the value inside an
optional result, vacuously for `none`. -/
def optionHolds {α : Type} (P : α → Prop) (o : Option α) : Prop :=
  match o with
  | none => True
  | some a => P a

instance {α : Type} (P : α → Prop) [DecidablePred P] (o : Option α) :
    Decidable (optionHolds P o) := by
  cases o <;> unfold optionHolds <;> infer_instance

/-- The fresh side-length-1 board (the value of `mkStonehengeGame true 1`). -/
def init1 : StonehengeState :=
  ⟨true, [⟨"n", ["A", "B"]⟩, ⟨"n", ["C"]⟩],
   [⟨"n", ["A"]⟩, ⟨"n", ["B", "C"]⟩],
   [⟨"n", ["B"]⟩, ⟨"n", ["A", "C"]⟩], 0, 0, 1⟩

/-- The fresh side-length-2 board (the value of `mkStonehengeGame true 2`). -/
def init2 : StonehengeState :=
  ⟨true, [⟨"n", ["A", "B"]⟩, ⟨"n", ["C", "D", "E"]⟩, ⟨"n", ["F", "G"]⟩,],
   [⟨"n", ["A", "C"]⟩, ⟨"n", ["B", "D", "F"]⟩, ⟨"n", ["E", "G"]⟩],
   [⟨"n", ["B", "E"]⟩, ⟨"n", ["A", "D", "G"]⟩, ⟨"n", ["C", "F"]⟩], 0, 0, 2⟩

/-- The terminal state reached by playing `"A"` on the fresh length-1 board. -/
def term1 : StonehengeState := make_move init1 "A"

/-! ## Terminal scoring helpers -/

/-- The state of the side-length-2 game after the moves A, B, D. -/
def cs2 : StonehengeState := make_move (make_move (make_move init2 "A") "B") "D"

/-- A Stonehenge state whose three region collections live on a heap of
region records, modelling Python references. -/
structure HeapState where
  p1_turn : Bool
  rowRefs : List Nat
  leftRefs : List Nat
  rightRefs : List Nat
  p1_score : Nat
  p2_score : Nat
  length : Nat
deriving DecidableEq, Repr

/-- All region references held by a heap state. -/
def allRefs (s : HeapState) : List Nat := s.rowRefs ++ s.leftRefs ++ s.rightRefs

/-- Dereference a list of region references. -/
def deref (h : List Region) (refs : List Nat) : Option (List Region) :=
  mapO (fun r => h[r]?) refs

/-- `copy.deepcopy` of one collection: allocate fresh records holding
copies of the referenced regions, returning the grown heap and the fresh
references. -/
def allocCopies (h : List Region) (refs : List Nat) :
    Option (List Region × List Nat) :=
  (deref h refs).map
    (fun rs => (h ++ rs, (List.range rs.length).map (fun j => h.length + j)))

/-- The mutation loop of `make_move` over one collection on the heap:
read the region at each reference, run `move_to_board`, write the result
back in place. -/
def hApplyLines : List Region → Nat × Nat → List Nat → String → String →
    Option (List Region × (Nat × Nat))
  | h, sc, [], _, _ => some (h, sc)
  | h, sc, rref :: rest, mv, cur =>
    (h[rref]?).bind (fun reg =>
      match move_to_board sc reg mv cur with
      | (reg', sc') => hApplyLines (h.set rref reg') sc' rest mv cur)

/-- `make_move` on the heap: deep-copy the three collections, then replay
`move_to_board` over the fresh references only, and return the successor
state pointing at the fresh records.  The receiver `s` and its records are
never written. -/
def hMakeMove (h : List Region) (s : HeapState) (mv : String) :
    Option (List Region × HeapState) :=
  let cur := if s.p1_turn then "1" else "2"
  (allocCopies h s.rowRefs).bind (fun p1 =>
    (allocCopies p1.1 s.leftRefs).bind (fun p2 =>
      (allocCopies p2.1 s.rightRefs).bind (fun p3 =>
        (hApplyLines p3.1 (s.p1_score, s.p2_score) p1.2 mv cur).bind (fun q1 =>
          (hApplyLines q1.1 q1.2 p2.2 mv cur).bind (fun q2 =>
            (hApplyLines q2.1 q2.2 p3.2 mv cur).map (fun q3 =>
              (q3.1, ⟨cur == "2", p1.2, p2.2, p3.2, q3.2.1, q3.2.2, s.length⟩)))))))

/-- The fresh length-1 board laid out on a heap: records 0-5 are the six
regions, the state holds references 0..5. -/
def heap0 : List Region :=
  [⟨"n", ["A", "B"]⟩, ⟨"n", ["C"]⟩, ⟨"n", ["A"]⟩, ⟨"n", ["B", "C"]⟩,
   ⟨"n", ["B"]⟩, ⟨"n", ["A", "C"]⟩]

/-- The heap-state counterpart of `init1`. -/
def hs0 : HeapState := ⟨true, [0, 1], [2, 3], [4, 5], 0, 0, 1⟩

/-- The heap and successor state produced by playing `"A"` from `hs0`:
records 0-5 are unchanged, records 6-11 are the fresh mutated copies. -/
def hout0 : List Region × HeapState :=
  ([⟨"n", ["A", "B"]⟩, ⟨"n", ["C"]⟩, ⟨"n", ["A"]⟩, ⟨"n", ["B", "C"]⟩,
    ⟨"n", ["B"]⟩, ⟨"n", ["A", "C"]⟩,
    ⟨"1", ["1", "B"]⟩, ⟨"n", ["C"]⟩, ⟨"1", ["1"]⟩, ⟨"n", ["B", "C"]⟩,
    ⟨"n", ["B"]⟩, ⟨"1", ["1", "C"]⟩],
   ⟨false, [6, 7], [8, 9], [10, 11], 3, 0, 1⟩)

/-- The outcome of fully processing one freshly pushed node: after some
number of loop iterations it is popped for good, carrying the negamax
value `max_score` would compute for its state; nothing else in the arena
is touched except the fresh descendants appended after it, and its
children's settled scores list the values of its state's successors in
move order. -/
def NodeDone (N : Nat) (mach : Machine) (t : Nat) (rest : List Nat)
    (s : StonehengeState) : Prop :=
  ∃ (n : Nat) (mach' : Machine) (ch : List Nat) (v : Int),
    steps n N mach = some mach' ∧
    mach'.stack = rest ∧
    mach.nodes.length ≤ mach'.nodes.length ∧
    (∀ i : Nat, i < mach.nodes.length → i ≠ t → mach'.nodes[i]? = mach.nodes[i]?) ∧
    mach'.nodes[t]? = some ⟨s, ch, some v⟩ ∧
    max_scoreC N s = some v ∧
    (is_over N s = false →
      mapO (fun c => (mach'.nodes[c]?).bind Node.score) ch =
        mapO (fun mv => max_scoreC N (make_move s mv)) (get_possible_moves s))

/-- The references of the children allocated when expanding a node whose
arena has `base` nodes. -/
def childIdxs (base : Nat) (s : StonehengeState) : List Nat :=
  (List.range (get_possible_moves s).length).map (fun j => base + j)

/-- The fresh child nodes allocated when expanding a node holding `s`. -/
def freshNodes (s : StonehengeState) : List Node :=
  (get_possible_moves s).map (fun mv => ⟨make_move s mv, [], none⟩)

theorem length_updCells (move cur : String) (l : List String) :
    (updCells move cur l).length = l.length := List.length_map _ _

theorem updCells_of_not_mem {move : String} (cur : String) {l : List String}
    (h : move ∉ l) : updCells move cur l = l := by
  induction l with
  | nil => rfl
  | cons c l ih =>
    simp only [List.mem_cons, not_or] at h
    have hrec := ih h.2
    simp only [updCells, List.map_cons] at hrec ⊢
    rw [if_neg (fun hh => h.1 hh.symm), hrec]

theorem count_le_count_updCells (move cur : String) (l : List String) :
    l.count cur ≤ (updCells move cur l).count cur := by
  induction l with
  | nil => exact Nat.le_refl _
  | cons c l ih =>
    simp only [updCells, List.map_cons, List.count_cons, beq_iff_eq] at ih ⊢
    split_ifs <;> first | omega | (exact absurd rfl (by assumption))

theorem count_updCells_eq {c cur : String} (move : String) (hc : c ≠ cur)
    (l : List String) :
    (updCells move cur l).count c = if c = move then 0 else l.count c := by
  induction l with
  | nil => by_cases hm : c = move <;> simp [updCells, hm]
  | cons x l ih =>
    simp only [updCells, List.map_cons, List.count_cons] at ih ⊢
    have hcurc : (cur == c) = false := by
      simp only [beq_eq_false_iff_ne]; exact fun hh => hc hh.symm
    by_cases hx : x = move
    · rw [if_pos hx, hcurc, ih]
      by_cases hm : c = move
      · simp [hm]
      · simp only [if_neg hm]
        have hxc : (x == c) = false := by
          simp only [beq_eq_false_iff_ne]
          exact fun hh => hm (hh.symm.trans hx)
        simp [hxc]
    · rw [if_neg hx, ih]
      by_cases hm : c = move
      · rw [if_pos hm, if_pos hm]
        have hxc : (x == c) = false := by
          simp only [beq_eq_false_iff_ne]
          intro hh; rw [hh] at hx; exact hx hm
        simp [hxc]
      · rw [if_neg hm, if_neg hm]

theorem mem_updCells_iff {c cur : String} (move : String) (hc : c ≠ cur)
    {l : List String} : c ∈ updCells move cur l ↔ c ∈ l ∧ c ≠ move := by
  constructor
  · intro h
    obtain ⟨x, hx, hfx⟩ := List.mem_map.mp h
    by_cases hxm : x = move
    · rw [if_pos hxm] at hfx; exact absurd hfx.symm hc
    · rw [if_neg hxm] at hfx; subst hfx; exact ⟨hx, hxm⟩
  · rintro ⟨h1, h2⟩
    exact List.mem_map.mpr ⟨c, h1, by rw [if_neg h2]⟩

theorem mtbAux_spec (move cur : String) :
    ∀ (rest done : List String) (st : String) (sc : Nat × Nat),
    mtbAux move cur done rest st sc =
      if st = "n" ∧ move ∈ rest ∧
          (done ++ rest).length ≤ 2 * ((done ++ updCells move cur rest).count cur) then
        ((if cur = "2" then "2" else "1"), done ++ updCells move cur rest,
         (if cur = "2" then (sc.1, sc.2 + 1) else (sc.1 + 1, sc.2)))
      else (st, done ++ updCells move cur rest, sc) := by
  intro rest
  induction rest with
  | nil =>
    intro done st sc
    rw [if_neg (by rintro ⟨-, h, -⟩; exact List.not_mem_nil _ h)]
    simp [mtbAux, updCells]
  | cons c rest ih =>
    intro done st sc
    by_cases hc : c = move
    · -- this cell matches the move
      have e_upd : updCells move cur (c :: rest) = cur :: updCells move cur rest := by
        simp only [updCells, List.map_cons, if_pos hc]
      have e_app : done ++ updCells move cur (c :: rest) =
          (done ++ [cur]) ++ updCells move cur rest := by
        rw [e_upd, List.append_cons]
      have e_len : (done ++ c :: rest).length = (done ++ [cur] ++ rest).length := by
        simp
      have e_len2 : (done ++ [cur] ++ rest).length =
          ((done ++ [cur]) ++ updCells move cur rest).length := by
        simp [length_updCells]
      have e_cnt : (done ++ [cur] ++ rest).count cur ≤
          ((done ++ [cur]) ++ updCells move cur rest).count cur := by
        simp only [List.count_append]
        have := count_le_count_updCells move cur rest
        omega
      have e_mem : move ∈ c :: rest := by rw [← hc]; exact List.mem_cons_self _ _
      by_cases hst : st = "n"
      · by_cases hnow : (done ++ [cur] ++ rest).length ≤ 2 * ((done ++ [cur] ++ rest).count cur)
        · -- the capture fires at this cell
          have hcond : st = "n" ∧ move ∈ c :: rest ∧
              (done ++ c :: rest).length ≤
                2 * ((done ++ updCells move cur (c :: rest)).count cur) := by
            refine ⟨hst, e_mem, ?_⟩
            rw [e_app, e_len]
            omega
          by_cases hcur : cur = "2"
          · rw [show mtbAux move cur done (c :: rest) st sc =
                  mtbAux move cur (done ++ [cur]) rest "2" (sc.1, sc.2 + 1) from by
                rw [mtbAux, if_pos hc, if_pos ⟨hst, hnow, hcur⟩]]
            rw [ih, if_neg (by rintro ⟨h2, -⟩; exact absurd h2 (by decide)),
              if_pos hcond, if_pos hcur, if_pos hcur, e_app]
          · rw [show mtbAux move cur done (c :: rest) st sc =
                  mtbAux move cur (done ++ [cur]) rest "1" (sc.1 + 1, sc.2) from by
                rw [mtbAux, if_pos hc, if_neg (by rintro ⟨-, -, h2⟩; exact hcur h2),
                  if_pos ⟨hst, hnow⟩]]
            rw [ih, if_neg (by rintro ⟨h2, -⟩; exact absurd h2 (by decide)),
              if_pos hcond, if_neg hcur, if_neg hcur, e_app]
        · -- replaced, but ownership still below half at this cell
          rw [show mtbAux move cur done (c :: rest) st sc =
                  mtbAux move cur (done ++ [cur]) rest st sc from by
              rw [mtbAux, if_pos hc, if_neg (by rintro ⟨-, h2, -⟩; exact hnow h2),
                if_neg (by rintro ⟨-, h2⟩; exact hnow h2)], ih]
          by_cases hmem : move ∈ rest
          · by_cases hlc : ((done ++ [cur]) ++ rest).length ≤
                2 * (((done ++ [cur]) ++ updCells move cur rest).count cur)
            · have hcond2 : st = "n" ∧ move ∈ c :: rest ∧
                  (done ++ c :: rest).length ≤
                    2 * ((done ++ updCells move cur (c :: rest)).count cur) := by
                refine ⟨hst, e_mem, ?_⟩
                rw [e_app, e_len]; exact hlc
              rw [if_pos ⟨hst, hmem, hlc⟩, if_pos hcond2, e_app]
            · rw [if_neg (by rintro ⟨-, -, h2⟩; exact hlc h2),
                if_neg (by rintro ⟨-, -, h2⟩; rw [e_app, e_len] at h2; exact hlc h2), e_app]
          · have e_id : updCells move cur rest = rest := updCells_of_not_mem cur hmem
            rw [if_neg (by rintro ⟨-, h2, -⟩; exact hmem h2),
              if_neg (by
                rintro ⟨-, -, h2⟩
                rw [e_app, e_id, e_len] at h2
                exact hnow h2), e_app]
      · -- status is not 'n': no capture ever fires
        rw [show mtbAux move cur done (c :: rest) st sc =
                mtbAux move cur (done ++ [cur]) rest st sc from by
            rw [mtbAux, if_pos hc, if_neg (by rintro ⟨h2, -⟩; exact hst h2),
              if_neg (by rintro ⟨h2, -⟩; exact hst h2)], ih]
        rw [if_neg (by rintro ⟨h2, -⟩; exact hst h2),
          if_neg (by rintro ⟨h2, -⟩; exact hst h2), e_app]
    · -- this cell does not match the move
      have e_upd : updCells move cur (c :: rest) = c :: updCells move cur rest := by
        simp only [updCells, List.map_cons, if_neg hc]
      have e_app : done ++ updCells move cur (c :: rest) =
          (done ++ [c]) ++ updCells move cur rest := by
        rw [e_upd, List.append_cons]
      have e_len : ((done ++ [c]) ++ rest).length = (done ++ c :: rest).length := by
        simp
      have hmemiff : move ∈ c :: rest ↔ move ∈ rest := by
        simp only [List.mem_cons]
        constructor
        · rintro (h | h)
          · exact absurd h.symm hc
          · exact h
        · exact Or.inr
      rw [show mtbAux move cur done (c :: rest) st sc =
              mtbAux move cur (done ++ [c]) rest st sc from by
          rw [mtbAux, if_neg hc], ih]
      by_cases hfull : st = "n" ∧ move ∈ rest ∧
          ((done ++ [c]) ++ rest).length ≤
            2 * (((done ++ [c]) ++ updCells move cur rest).count cur)
      · have hcond2 : st = "n" ∧ move ∈ c :: rest ∧
            (done ++ c :: rest).length ≤
              2 * ((done ++ updCells move cur (c :: rest)).count cur) := by
          refine ⟨hfull.1, hmemiff.mpr hfull.2.1, ?_⟩
          rw [e_app, ← e_len]; exact hfull.2.2
        rw [if_pos hfull, if_pos hcond2, e_app]
      · rw [if_neg hfull,
          if_neg (by
            rintro ⟨h1, h2, h3⟩
            exact hfull ⟨h1, hmemiff.mp h2, by rw [e_len, ← e_app]; exact h3⟩), e_app]

/-- `move_to_board` in closed form: the region becomes `updRegion`, the
score pair is incremented by `regionDelta`. -/
theorem move_to_board_spec (sc : Nat × Nat) (r : Region) (move cur : String) :
    move_to_board sc r move cur =
      (updRegion move cur r,
       (sc.1 + (regionDelta move cur r).1, sc.2 + (regionDelta move cur r).2)) := by
  unfold move_to_board
  rw [mtbAux_spec]
  simp only [List.nil_append]
  unfold updRegion regionDelta
  by_cases hcap : capturesRegion move cur r
  · have hcap' : r.status = "n" ∧ move ∈ r.cells ∧
        r.cells.length ≤ 2 * ((updCells move cur r.cells).count cur) := hcap
    rw [if_pos hcap', if_pos hcap, if_pos hcap]
    by_cases hcur : cur = "2" <;> simp [hcur]
  · have hcap' : ¬ (r.status = "n" ∧ move ∈ r.cells ∧
        r.cells.length ≤ 2 * ((updCells move cur r.cells).count cur)) := hcap
    rw [if_neg hcap', if_neg hcap, if_neg hcap]
    simp

theorem applyLines_spec (move cur : String) :
    ∀ (rs : List Region) (sc : Nat × Nat),
    applyLines sc rs move cur =
      ((sc.1 + (deltaSum move cur rs).1, sc.2 + (deltaSum move cur rs).2),
       rs.map (updRegion move cur)) := by
  intro rs
  induction rs with
  | nil => intro sc; simp [applyLines, deltaSum]
  | cons r rest ih =>
    intro sc
    rw [applyLines, move_to_board_spec]
    dsimp only
    rw [ih]
    simp only [deltaSum, List.map_cons, List.sum_cons, List.map_map]
    refine congrArg₂ Prod.mk (congrArg₂ Prod.mk ?_ ?_) rfl <;> omega

/-- `make_move` in closed form: every collection is updated regionwise, the
scores are incremented by the capture counts, the turn flips. -/
theorem make_move_spec (s : StonehengeState) (move : String) :
    make_move s move =
      ⟨curPlayer s == "2",
       s.rows.map (updRegion move (curPlayer s)),
       s.left.map (updRegion move (curPlayer s)),
       s.right.map (updRegion move (curPlayer s)),
       s.p1_score + (deltaSum move (curPlayer s) s.rows).1 +
         (deltaSum move (curPlayer s) s.left).1 +
         (deltaSum move (curPlayer s) s.right).1,
       s.p2_score + (deltaSum move (curPlayer s) s.rows).2 +
         (deltaSum move (curPlayer s) s.left).2 +
         (deltaSum move (curPlayer s) s.right).2,
       s.length⟩ := by
  rw [show make_move s move =
      (match applyLines (s.p1_score, s.p2_score) s.rows move (curPlayer s) with
       | (sc1, rows') =>
         match applyLines sc1 s.left move (curPlayer s) with
         | (sc2, left') =>
           match applyLines sc2 s.right move (curPlayer s) with
           | (sc3, right') =>
             ⟨curPlayer s == "2", rows', left', right', sc3.1, sc3.2, s.length⟩) from rfl]
  rw [applyLines_spec]
  dsimp only
  rw [applyLines_spec]
  dsimp only
  rw [applyLines_spec]

theorem make_move_length (s : StonehengeState) (move : String) :
    (make_move s move).length = s.length := by rw [make_move_spec]

theorem make_move_rows (s : StonehengeState) (move : String) :
    (make_move s move).rows = s.rows.map (updRegion move (curPlayer s)) := by
  rw [make_move_spec]

theorem make_move_left (s : StonehengeState) (move : String) :
    (make_move s move).left = s.left.map (updRegion move (curPlayer s)) := by
  rw [make_move_spec]

theorem make_move_right (s : StonehengeState) (move : String) :
    (make_move s move).right = s.right.map (updRegion move (curPlayer s)) := by
  rw [make_move_spec]

theorem make_move_p1_turn (s : StonehengeState) (move : String) :
    (make_move s move).p1_turn = !s.p1_turn := by
  rw [make_move_spec]
  cases h : s.p1_turn <;> simp [curPlayer, h]

theorem curPlayer_unclaimedB (s : StonehengeState) : unclaimedB (curPlayer s) = false := by
  unfold curPlayer unclaimedB
  cases s.p1_turn <;> simp

theorem flatten_map_filter (f : String → Bool) :
    ∀ (rs : List Region),
    (rs.map (fun r => r.cells.filter f)).flatten = ((rs.map Region.cells).flatten).filter f := by
  intro rs
  induction rs with
  | nil => rfl
  | cons r rest ih => simp [List.filter_append, ih]

/-- Below the score threshold, the possible moves are exactly the unclaimed
row cells in order. -/
theorem get_possible_moves_eq (s : StonehengeState)
    (h : ¬ (3 * (s.length + 1) ≤ 2 * s.p1_score ∨ 3 * (s.length + 1) ≤ 2 * s.p2_score)) :
    get_possible_moves s = (flatRows s).filter unclaimedB := by
  rw [get_possible_moves, if_neg h, flatten_map_filter, flatRows]

theorem mem_get_possible_moves {s : StonehengeState} {m : String}
    (h : m ∈ get_possible_moves s) :
    unclaimedB m = true ∧ m ∈ flatRows s ∧
      ¬ (3 * (s.length + 1) ≤ 2 * s.p1_score ∨ 3 * (s.length + 1) ≤ 2 * s.p2_score) := by
  by_cases hth : 3 * (s.length + 1) ≤ 2 * s.p1_score ∨ 3 * (s.length + 1) ≤ 2 * s.p2_score
  · rw [get_possible_moves, if_pos hth] at h
    exact absurd h (List.not_mem_nil m)
  · rw [get_possible_moves_eq s hth] at h
    have := List.mem_filter.mp h
    exact ⟨this.2, this.1, hth⟩

theorem flatRows_make_move (s : StonehengeState) (move : String) :
    flatRows (make_move s move) = updCells move (curPlayer s) (flatRows s) := by
  rw [flatRows, make_move_rows]
  have : (s.rows.map (updRegion move (curPlayer s))).map Region.cells =
      s.rows.map (fun r => updCells move (curPlayer s) r.cells) := by
    rw [List.map_map]
    apply List.map_congr_left
    intro r _
    simp only [Function.comp_apply, updRegion]
    by_cases hcap : capturesRegion move (curPlayer s) r <;> simp [hcap]
  rw [this]
  have : s.rows.map (fun r => updCells move (curPlayer s) r.cells) =
      (s.rows.map Region.cells).map (List.map (fun c => if c = move then curPlayer s else c)) := by
    rw [List.map_map]; rfl
  rw [this, ← List.map_flatten]
  rfl

theorem filter_updCells (move cur : String) (hcur : unclaimedB cur = false)
    (l : List String) :
    (updCells move cur l).filter unclaimedB =
      l.filter (fun c => unclaimedB c && !(c == move)) := by
  induction l with
  | nil => rfl
  | cons x l ih =>
    simp only [updCells, List.map_cons, List.filter_cons] at ih ⊢
    by_cases hx : x = move
    · simp [hx, hcur, ih]
    · by_cases hu : unclaimedB x = true <;> simp [hx, hu, ih]

theorem length_filter_ne (m : String) :
    ∀ (l : List String), (l.filter (fun c => !(c == m))).length + l.count m = l.length := by
  intro l
  induction l with
  | nil => rfl
  | cons x l ih =>
    by_cases hx : x = m <;>
      simp [List.filter_cons, List.count_cons, hx] <;> omega

theorem filter_and_eq_filter_filter (p q : String → Bool) (l : List String) :
    l.filter (fun c => p c && q c) = (l.filter p).filter q := by
  induction l with
  | nil => rfl
  | cons x l ih =>
    simp only [List.filter_cons]
    cases hp : p x <;> cases hq : q x <;> simp [List.filter_cons, hp, hq, ih]

/-- Each legal move strictly decreases the number of unclaimed row cells:
the termination measure of both search strategies. -/
theorem countUnclaimed_make_move_lt {s : StonehengeState} {m : String}
    (h : m ∈ get_possible_moves s) :
    countUnclaimed (make_move s m) < countUnclaimed s := by
  obtain ⟨hu, hmem, -⟩ := mem_get_possible_moves h
  have e1 : countUnclaimed (make_move s m) =
      (((flatRows s).filter unclaimedB).filter (fun c => !(c == m))).length := by
    rw [show countUnclaimed (make_move s m) =
        ((flatRows (make_move s m)).filter unclaimedB).length from rfl]
    rw [flatRows_make_move, filter_updCells m (curPlayer s) (curPlayer_unclaimedB s),
      filter_and_eq_filter_filter]
  have e2 : countUnclaimed s = ((flatRows s).filter unclaimedB).length := rfl
  have hmemf : m ∈ (flatRows s).filter unclaimedB := List.mem_filter.mpr ⟨hmem, hu⟩
  have hcnt : 1 ≤ ((flatRows s).filter unclaimedB).count m :=
    List.count_pos_iff.mpr hmemf
  have := length_filter_ne m ((flatRows s).filter unclaimedB)
  omega

/-! ## The reachable-state invariant -/

theorem optionHolds_some {α : Type} (P : α → Prop) {o : Option α} {a : α}
    (hP : optionHolds P o) (h : o = some a) : P a := by
  cases o with
  | none => cases h
  | some b =>
    injection h with h
    subst h
    exact hP

/-- For side length at least 6 the alphabet runs out while building the
rows: the constructor raises (returns `none`). -/
theorem buildRows_none {N : Nat} (h : 6 ≤ N) : buildRows N (N + 1) 2 0 = none := by
  obtain ⟨d, rfl⟩ : ∃ d, N = 6 + d := ⟨N - 6, by omega⟩
  rw [buildRows, if_pos (by omega), if_neg (by omega),
    show (6 : Nat) + d = (5 + d) + 1 from by omega]
  rw [buildRows, if_pos (by omega), if_neg (by omega),
    show (5 : Nat) + d = (4 + d) + 1 from by omega]
  rw [buildRows, if_pos (by omega), if_neg (by omega),
    show (4 : Nat) + d = (3 + d) + 1 from by omega]
  rw [buildRows, if_pos (by omega), if_neg (by omega),
    show (3 : Nat) + d = (2 + d) + 1 from by omega]
  rw [buildRows, if_pos (by omega), if_neg (by omega),
    show (2 : Nat) + d = (1 + d) + 1 from by omega]
  rw [buildRows, if_neg (by omega)]
  simp

theorem mkStonehengeGame_none {N : Nat} (isP1 : Bool) (h : 6 ≤ N) :
    mkStonehengeGame isP1 N = none := by
  rw [mkStonehengeGame, buildRows_none h]
  rfl

/-- Every freshly constructed game state satisfies the invariant. -/
theorem StInv_init {N : Nat} {isP1 : Bool} {s : StonehengeState}
    (h : mkStonehengeGame isP1 N = some s) : StInv N s := by
  by_cases h6 : 6 ≤ N
  · rw [mkStonehengeGame_none isP1 h6] at h; cases h
  · have hN : N < 6 := by omega
    interval_cases N <;> cases isP1 <;> (refine optionHolds_some _ ?_ h; decide)

theorem unclaimedB_iff {c : String} : unclaimedB c = true ↔ c ≠ "1" ∧ c ≠ "2" := by
  simp [unclaimedB]

theorem unclaimedB_false_iff {c : String} : unclaimedB c = false ↔ c = "1" ∨ c = "2" := by
  simp [unclaimedB, Decidable.imp_iff_not_or]

theorem statusOK_upd {r : Region} {m cur : String} (h : statusOK r) :
    statusOK (updRegion m cur r) := by
  unfold updRegion
  by_cases hcap : capturesRegion m cur r
  · rw [if_pos hcap]
    by_cases hcur : cur = "2" <;> simp [statusOK, hcur]
  · rw [if_neg hcap]
    exact h

theorem cntOK_upd {r : Region} {m cur : String} (hm1 : m ≠ "1") (hm2 : m ≠ "2")
    (hcnt : cntOK r) : cntOK (updRegion m cur r) := by
  intro hst'
  by_cases hcap : capturesRegion m cur r
  · exfalso
    rw [updRegion, if_pos hcap] at hst'
    by_cases hcur : cur = "2"
    · rw [if_pos hcur] at hst'
      dsimp only at hst'
      exact absurd hst' (by decide)
    · rw [if_neg hcur] at hst'
      dsimp only at hst'
      exact absurd hst' (by decide)
  · rw [updRegion, if_neg hcap] at hst' ⊢
    simp only at hst' ⊢
    have hn : r.status = "n" := hst'
    obtain ⟨b1, b2⟩ := hcnt hn
    rw [length_updCells]
    constructor
    · by_cases h1c : ("1" : String) = cur
      · by_cases hmem : m ∈ r.cells
        · have : ¬ (r.cells.length ≤ 2 * ((updCells m cur r.cells).count cur)) :=
            fun hle => hcap ⟨hn, hmem, hle⟩
          rw [h1c]; omega
        · rw [updCells_of_not_mem cur hmem]; exact b1
      · rw [count_updCells_eq m h1c, if_neg (fun hh => hm1 hh.symm)]
        exact b1
    · by_cases h2c : ("2" : String) = cur
      · by_cases hmem : m ∈ r.cells
        · have : ¬ (r.cells.length ≤ 2 * ((updCells m cur r.cells).count cur)) :=
            fun hle => hcap ⟨hn, hmem, hle⟩
          rw [h2c]; omega
        · rw [updCells_of_not_mem cur hmem]; exact b2
      · rw [count_updCells_eq m h2c, if_neg (fun hh => hm2 hh.symm)]
        exact b2

theorem filter_tag_map_upd (m cur : String) :
    ∀ rs : List Region,
    ((rs.map (updRegion m cur)).filter (fun r => r.status == "1")).length
        = (rs.filter (fun r => r.status == "1")).length + (deltaSum m cur rs).1 ∧
    ((rs.map (updRegion m cur)).filter (fun r => r.status == "2")).length
        = (rs.filter (fun r => r.status == "2")).length + (deltaSum m cur rs).2 := by
  intro rs
  induction rs with
  | nil => simp [deltaSum]
  | cons r rs ih =>
    have hds : (deltaSum m cur (r :: rs)).1 = (regionDelta m cur r).1 + (deltaSum m cur rs).1 ∧
        (deltaSum m cur (r :: rs)).2 = (regionDelta m cur r).2 + (deltaSum m cur rs).2 := by
      simp [deltaSum]
    by_cases hcap : capturesRegion m cur r
    · have hn : r.status = "n" := hcap.1
      have hupd2 : updRegion m cur r =
          ⟨if cur = "2" then "2" else "1", updCells m cur r.cells⟩ := by
        rw [updRegion, if_pos hcap]
      have hdr : regionDelta m cur r = (if cur = "2" then (0, 1) else (1, 0)) := by
        rw [regionDelta, if_pos hcap]
      by_cases hcur : cur = "2"
      · subst hcur
        simp [List.filter_cons, hupd2, hdr, hn, hds.1, hds.2, ih.1, ih.2]
        omega
      · simp [List.filter_cons, hupd2, hdr, hcur, hn, hds.1, hds.2, ih.1, ih.2]
        omega
    · have hcells : updRegion m cur r = ⟨r.status, updCells m cur r.cells⟩ := by
        rw [updRegion, if_neg hcap]
      have hdr : regionDelta m cur r = (0, 0) := by rw [regionDelta, if_neg hcap]
      cases h1 : (r.status == "1") <;> cases h2 : (r.status == "2") <;>
        simp [List.filter_cons, hcells, hdr, h1, h2, hds.1, hds.2, ih.1, ih.2] <;>
        omega

theorem regionsOf_make_move (s : StonehengeState) (m : String) :
    regionsOf (make_move s m) = (regionsOf s).map (updRegion m (curPlayer s)) := by
  rw [regionsOf, regionsOf, make_move_rows, make_move_left, make_move_right,
    List.map_append, List.map_append]

theorem updRegion_cells (m cur : String) (r : Region) :
    (updRegion m cur r).cells = updCells m cur r.cells := by
  unfold updRegion; split <;> rfl

/-- Applying a legal move preserves the invariant. -/
theorem StInv_step {N : Nat} {s : StonehengeState} {m : String}
    (hInv : StInv N s) (hm : m ∈ get_possible_moves s) : StInv N (make_move s m) := by
  obtain ⟨hlen, hr, hl, hri, hreg, hp1, hp2, hsync, huniq⟩ := hInv
  obtain ⟨hu, hmem, hth⟩ := mem_get_possible_moves hm
  obtain ⟨hm1, hm2⟩ := unclaimedB_iff.mp hu
  have hcur_ne : ∀ c, unclaimedB c = true → c ≠ curPlayer s := by
    intro c hc hcc
    rw [hcc, curPlayer_unclaimedB] at hc
    cases hc
  refine ⟨?_, ?_, ?_, ?_, ?_, ?_, ?_, ?_, ?_⟩
  · rw [make_move_length, hlen]
  · rw [make_move_rows, List.length_map, hr]
  · rw [make_move_left, List.length_map, hl]
  · rw [make_move_right, List.length_map, hri]
  · intro r' hr'
    rw [regionsOf_make_move] at hr'
    obtain ⟨r, hrmem, rfl⟩ := List.mem_map.mp hr'
    obtain ⟨hsOK, hcOK⟩ := hreg r hrmem
    exact ⟨statusOK_upd hsOK, cntOK_upd hm1 hm2 hcOK⟩
  · rw [show (make_move s m).p1_score =
        s.p1_score + (deltaSum m (curPlayer s) s.rows).1 +
          (deltaSum m (curPlayer s) s.left).1 +
          (deltaSum m (curPlayer s) s.right).1 from by rw [make_move_spec]]
    rw [regionsOf, make_move_rows, make_move_left, make_move_right,
      List.filter_append, List.filter_append, List.length_append, List.length_append,
      (filter_tag_map_upd m (curPlayer s) s.rows).1,
      (filter_tag_map_upd m (curPlayer s) s.left).1,
      (filter_tag_map_upd m (curPlayer s) s.right).1,
      hp1, regionsOf, List.filter_append, List.filter_append,
      List.length_append, List.length_append]
    omega
  · rw [show (make_move s m).p2_score =
        s.p2_score + (deltaSum m (curPlayer s) s.rows).2 +
          (deltaSum m (curPlayer s) s.left).2 +
          (deltaSum m (curPlayer s) s.right).2 from by rw [make_move_spec]]
    rw [regionsOf, make_move_rows, make_move_left, make_move_right,
      List.filter_append, List.filter_append, List.length_append, List.length_append,
      (filter_tag_map_upd m (curPlayer s) s.rows).2,
      (filter_tag_map_upd m (curPlayer s) s.left).2,
      (filter_tag_map_upd m (curPlayer s) s.right).2,
      hp2, regionsOf, List.filter_append, List.filter_append,
      List.length_append, List.length_append]
    omega
  · intro r' hr' c hc hcu
    rw [make_move_left, make_move_right, ← List.map_append] at hr'
    obtain ⟨r, hrmem, rfl⟩ := List.mem_map.mp hr'
    have hcne : c ≠ curPlayer s := hcur_ne c hcu
    rw [updRegion_cells] at hc
    obtain ⟨hcmem, hcm⟩ := (mem_updCells_iff m hcne).mp hc
    obtain ⟨r2, hr2, hcr2⟩ := hsync r hrmem c hcmem hcu
    refine ⟨updRegion m (curPlayer s) r2, ?_, ?_⟩
    · rw [make_move_rows]
      exact List.mem_map.mpr ⟨r2, hr2, rfl⟩
    · rw [updRegion_cells]
      exact (mem_updCells_iff m hcne).mpr ⟨hcr2, hcm⟩
  · intro c hc hcu
    rw [flatRows_make_move] at hc ⊢
    have hcne : c ≠ curPlayer s := hcur_ne c hcu
    rw [count_updCells_eq m hcne]
    by_cases hcm : c = m
    · simp [hcm]
    · rw [if_neg hcm]
      obtain ⟨hcmem, -⟩ := (mem_updCells_iff m hcne).mp hc
      exact huniq c hcmem hcu

/-- Every reachable state satisfies the invariant. -/
theorem Reachable_StInv {N : Nat} {s : StonehengeState} (h : Reachable N s) :
    StInv N s := by
  induction h with
  | init isP1 s h => exact StInv_init h
  | step s m hs hm ih => exact StInv_step ih hm

theorem count_one_two_of_claimed {l : List String}
    (h : ∀ c ∈ l, unclaimedB c = false) : l.count "1" + l.count "2" = l.length := by
  induction l with
  | nil => rfl
  | cons x l ih =>
    have hx := unclaimedB_false_iff.mp (h x (List.mem_cons_self _ _))
    have hrest := ih (fun c hc => h c (List.mem_cons_of_mem _ hc))
    rcases hx with hx | hx <;>
      subst hx <;> simp [List.count_cons] <;> omega

theorem filter_tags_length {rs : List Region}
    (h : ∀ r ∈ rs, r.status = "1" ∨ r.status = "2") :
    (rs.filter (fun r => r.status == "1")).length +
      (rs.filter (fun r => r.status == "2")).length = rs.length := by
  induction rs with
  | nil => rfl
  | cons r rs ih =>
    have hr := h r (List.mem_cons_self _ _)
    have hrest := ih (fun r' hr' => h r' (List.mem_cons_of_mem _ hr'))
    rcases hr with hr | hr <;> simp [List.filter_cons, hr] <;> omega

/-- The heart of terminal agreement: on an invariant-satisfying state with
no possible moves the game is over (emptying the board captures every
region, so the scores sum to all `3(N+1)` regions and one of them meets the
threshold). -/
theorem is_over_of_moves_nil {N : Nat} {s : StonehengeState} (hInv : StInv N s)
    (h : get_possible_moves s = []) : is_over N s = true := by
  obtain ⟨hlen, hr, hl, hri, hreg, hp1, hp2, hsync, huniq⟩ := hInv
  by_cases hth : 3 * (s.length + 1) ≤ 2 * s.p1_score ∨ 3 * (s.length + 1) ≤ 2 * s.p2_score
  · simp only [is_over, Bool.or_eq_true, decide_eq_true_eq]
    rw [← hlen]
    exact hth
  · exfalso
    rw [get_possible_moves_eq s hth] at h
    have hclaimed_rows : ∀ c ∈ flatRows s, unclaimedB c = false := by
      intro c hc
      cases hb : unclaimedB c
      · rfl
      · exfalso
        have : c ∈ (flatRows s).filter unclaimedB := List.mem_filter.mpr ⟨hc, hb⟩
        rw [h] at this
        exact List.not_mem_nil _ this
    have hall : ∀ r ∈ regionsOf s, ∀ c ∈ r.cells, unclaimedB c = false := by
      intro r hrmem c hcmem
      rw [regionsOf] at hrmem
      have hdiagcase : r ∈ s.left ++ s.right → ∀ hb : unclaimedB c = true, False := by
        intro hdiag hb
        obtain ⟨r2, hr2, hcr2⟩ := hsync r hdiag c hcmem hb
        have : unclaimedB c = false := hclaimed_rows c
          (List.mem_flatten.mpr ⟨r2.cells, List.mem_map.mpr ⟨r2, hr2, rfl⟩, hcr2⟩)
        rw [hb] at this
        cases this
      rcases List.mem_append.mp hrmem with h12 | hright
      · rcases List.mem_append.mp h12 with hrow | hleft
        · exact hclaimed_rows c
            (List.mem_flatten.mpr ⟨r.cells, List.mem_map.mpr ⟨r, hrow, rfl⟩, hcmem⟩)
        · cases hb : unclaimedB c
          · rfl
          · exact (hdiagcase (List.mem_append.mpr (Or.inl hleft)) hb).elim
      · cases hb : unclaimedB c
        · rfl
        · exact (hdiagcase (List.mem_append.mpr (Or.inr hright)) hb).elim
    have hstat : ∀ r ∈ regionsOf s, r.status = "1" ∨ r.status = "2" := by
      intro r hrmem
      obtain ⟨hsOK, hcOK⟩ := hreg r hrmem
      rcases hsOK with hn | h1 | h2
      · exfalso
        obtain ⟨b1, b2⟩ := hcOK hn
        have := count_one_two_of_claimed (hall r hrmem)
        omega
      · exact Or.inl h1
      · exact Or.inr h2
    have hsum := filter_tags_length hstat
    have hlen3 : (regionsOf s).length = 3 * (N + 1) := by
      rw [regionsOf, List.length_append, List.length_append, hr, hl, hri]
      omega
    rw [hlen] at hth
    push_neg at hth
    omega

theorem moves_nil_of_over {N : Nat} {s : StonehengeState} (hlen : s.length = N)
    (h : is_over N s = true) : get_possible_moves s = [] := by
  simp only [is_over, Bool.or_eq_true, decide_eq_true_eq] at h
  rw [get_possible_moves, if_pos (by rw [hlen]; exact h)]

/-! ## Concrete boards used as witnesses -/

theorem termScore_of_over {len : Nat} {s : StonehengeState}
    (h : is_over len s = true) : termScore len s = -1 := by
  unfold termScore is_winner get_current_player_name
  cases hp : s.p1_turn <;> simp [h, hp]

theorem termScoreIter_of_over {len : Nat} {s : StonehengeState}
    (h : is_over len s = true) : termScoreIter len s = -1 := by
  unfold termScoreIter is_winner get_current_player_name
  cases hp : s.p1_turn <;> simp [h, hp]

/-! ## Claim theorems: board model -/

/-- C3: for every reachable state of a side-length-`N` game, `is_over` is
true exactly when `get_possible_moves` is empty, and the game is terminal
exactly when either score reaches `3*(N+1)/2` (integer rendering
`3*(N+1) <= 2*score`) — even if unclaimed cells remain. -/
theorem c3_terminal_agreement (N : Nat) (s : StonehengeState) (h : Reachable N s) :
    ((is_over N s = true) ↔ get_possible_moves s = []) ∧
    ((is_over N s = true) ↔
      (3 * (N + 1) ≤ 2 * s.p1_score ∨ 3 * (N + 1) ≤ 2 * s.p2_score)) := by
  have hInv := Reachable_StInv h
  refine ⟨⟨moves_nil_of_over hInv.1, is_over_of_moves_nil hInv⟩, ?_⟩
  simp [is_over]

theorem c3_terminal_agreement_witness :
    ((is_over 1 init1 = true) ↔ get_possible_moves init1 = []) ∧
    ((is_over 1 init1 = true) ↔
      (3 * (1 + 1) ≤ 2 * init1.p1_score ∨ 3 * (1 + 1) ≤ 2 * init1.p2_score)) :=
  c3_terminal_agreement 1 init1 (Reachable.init true init1 (by decide))

/-- C4 counterexample: on the fresh side-length-1 board, move `"A"` gives
player 1 three captured ley-lines (not two) and the state is terminal
(threshold 3), contradicting the claimed `p1_score = 2` and non-terminal. -/
theorem c4_counterexample :
    (make_move init1 "A").p1_score = 3 ∧ is_over 1 (make_move init1 "A") = true := by
  decide

/-- C4 (amended): for side length 1 the constructor yields six ley-lines
(rows `{A,B}`, `{C}`; left diagonals `{A}`, `{B,C}`; right diagonals `{B}`,
`{A,C}`); applying `"A"` captures the row `{A,B}`, the left diagonal `{A}`
and the right diagonal `{A,C}` for player 1, yielding `p1_score = 3`, and
the resulting state is terminal (the threshold for `N = 1` is 3). -/
theorem c4_amended :
    mkStonehengeGame true 1 = some init1 ∧
    make_move init1 "A" =
      ⟨false, [⟨"1", ["1", "B"]⟩, ⟨"n", ["C"]⟩],
       [⟨"1", ["1"]⟩, ⟨"n", ["B", "C"]⟩],
       [⟨"n", ["B"]⟩, ⟨"1", ["1", "C"]⟩], 3, 0, 1⟩ ∧
    is_over 1 (make_move init1 "A") = true := by
  refine ⟨by decide, by decide, by decide⟩

/-- C5 counterexample: `make_move` does not signal an invalid-move
condition: on the fresh length-1 board the non-cell label `"Z"` is
silently ignored — a successor state is returned whose board and scores
are unchanged and whose turn has flipped. -/
theorem c5_counterexample :
    make_move init1 "Z" =
      ⟨false, [⟨"n", ["A", "B"]⟩, ⟨"n", ["C"]⟩],
       [⟨"n", ["A"]⟩, ⟨"n", ["B", "C"]⟩],
       [⟨"n", ["B"]⟩, ⟨"n", ["A", "C"]⟩], 0, 0, 1⟩ := by
  decide

theorem updRegion_id {m : String} (cur : String) {r : Region} (h : m ∉ r.cells) :
    updRegion m cur r = r := by
  have hcells := updCells_of_not_mem (l := r.cells) cur h
  rw [updRegion, if_neg (fun hcap => h hcap.2.1), hcells]

theorem deltaSum_zero {m : String} (cur : String) {rs : List Region}
    (h : ∀ r ∈ rs, m ∉ r.cells) : deltaSum m cur rs = (0, 0) := by
  induction rs with
  | nil => rfl
  | cons r rs ih =>
    have hr : regionDelta m cur r = (0, 0) := by
      rw [regionDelta, if_neg (fun hcap => h r (List.mem_cons_self _ _) hcap.2.1)]
    have := ih (fun r' hr' => h r' (List.mem_cons_of_mem _ hr'))
    simp only [deltaSum, List.map_cons, List.sum_cons, List.map_map, hr,
      Prod.mk.injEq] at this ⊢
    exact ⟨by simp [this.1], by simp [this.2]⟩

/-- C5 (amended): a label matching no cell of any region is silently
ignored: `make_move` applies no capture and returns a successor whose
board and scores equal the original's, with only the turn flipped. -/
theorem c5_unmatched_silently_ignored (s : StonehengeState) (lbl : String)
    (h : ∀ r ∈ regionsOf s, lbl ∉ r.cells) :
    make_move s lbl =
      ⟨!s.p1_turn, s.rows, s.left, s.right, s.p1_score, s.p2_score, s.length⟩ := by
  have hrows : ∀ r ∈ s.rows, lbl ∉ r.cells := fun r hr =>
    h r (List.mem_append.mpr (Or.inl (List.mem_append.mpr (Or.inl hr))))
  have hleft : ∀ r ∈ s.left, lbl ∉ r.cells := fun r hr =>
    h r (List.mem_append.mpr (Or.inl (List.mem_append.mpr (Or.inr hr))))
  have hright : ∀ r ∈ s.right, lbl ∉ r.cells := fun r hr =>
    h r (List.mem_append.mpr (Or.inr hr))
  have hmapid : ∀ rs : List Region, (∀ r ∈ rs, lbl ∉ r.cells) →
      rs.map (updRegion lbl (curPlayer s)) = rs := by
    intro rs hrs
    induction rs with
    | nil => rfl
    | cons r rest ihh =>
      rw [List.map_cons, updRegion_id (curPlayer s) (hrs r (List.mem_cons_self _ _)),
        ihh (fun r' hr' => hrs r' (List.mem_cons_of_mem _ hr'))]
  have hturn : (curPlayer s == "2") = !s.p1_turn := by
    cases hp : s.p1_turn <;> simp [curPlayer, hp]
  rw [make_move_spec, hmapid s.rows hrows, hmapid s.left hleft, hmapid s.right hright,
    deltaSum_zero (curPlayer s) hrows, deltaSum_zero (curPlayer s) hleft,
    deltaSum_zero (curPlayer s) hright, hturn]
  simp

theorem c5_unmatched_silently_ignored_witness :
    make_move init1 "Q" =
      ⟨!init1.p1_turn, init1.rows, init1.left, init1.right,
       init1.p1_score, init1.p2_score, init1.length⟩ :=
  c5_unmatched_silently_ignored init1 "Q" (by decide)

theorem updRegion_status_of_ne {m cur : String} {r : Region} (h : r.status ≠ "n") :
    (updRegion m cur r).status = r.status := by
  rw [updRegion, if_neg (fun hcap => h hcap.1)]

/-- C7: a region's capture status, once set to `'1'` or `'2'`, is invariant
under every subsequent `make_move` (it never reverts to uncaptured and
never flips to the other player), in each of the three collections. -/
theorem c7_capture_monotone (s : StonehengeState) (m : String) :
    (∀ i : Nat, ∀ r r' : Region, s.rows[i]? = some r →
      (make_move s m).rows[i]? = some r' → r.status ≠ "n" → r'.status = r.status) ∧
    (∀ i : Nat, ∀ r r' : Region, s.left[i]? = some r →
      (make_move s m).left[i]? = some r' → r.status ≠ "n" → r'.status = r.status) ∧
    (∀ i : Nat, ∀ r r' : Region, s.right[i]? = some r →
      (make_move s m).right[i]? = some r' → r.status ≠ "n" → r'.status = r.status) := by
  have key : ∀ (rs : List Region) (i : Nat) (r r' : Region), rs[i]? = some r →
      (rs.map (updRegion m (curPlayer s)))[i]? = some r' →
      r.status ≠ "n" → r'.status = r.status := by
    intro rs i r r' hr hr' hst
    rw [List.getElem?_map, hr] at hr'
    injection hr' with hr'
    rw [← hr']
    exact updRegion_status_of_ne hst
  refine ⟨?_, ?_, ?_⟩
  · intro i r r' hr hr' hst
    rw [make_move_rows] at hr'
    exact key s.rows i r r' hr hr' hst
  · intro i r r' hr hr' hst
    rw [make_move_left] at hr'
    exact key s.left i r r' hr hr' hst
  · intro i r r' hr hr' hst
    rw [make_move_right] at hr'
    exact key s.right i r r' hr hr' hst

theorem c7_capture_monotone_witness :
    (⟨"1", ["1", "2"]⟩ : Region).status = (⟨"1", ["1", "B"]⟩ : Region).status :=
  (c7_capture_monotone term1 "B").1 0 ⟨"1", ["1", "B"]⟩ ⟨"1", ["1", "2"]⟩
    (by decide) (by decide) (by decide)

/-- C8: from any reachable state, a legal move shrinks the possible-move
list by exactly one while the successor is non-terminal, and empties it
once the successor is terminal. -/
theorem c8_move_shrinkage (N : Nat) (s : StonehengeState) (m : String)
    (h : Reachable N s) (hm : m ∈ get_possible_moves s) :
    (is_over N (make_move s m) = false →
      (get_possible_moves (make_move s m)).length + 1 = (get_possible_moves s).length) ∧
    (is_over N (make_move s m) = true →
      get_possible_moves (make_move s m) = []) := by
  have hInv := Reachable_StInv h
  have hlen' : (make_move s m).length = N := by rw [make_move_length, hInv.1]
  obtain ⟨hu, hmem, hth⟩ := mem_get_possible_moves hm
  constructor
  · intro hnotover
    have hth' : ¬ (3 * ((make_move s m).length + 1) ≤ 2 * (make_move s m).p1_score ∨
        3 * ((make_move s m).length + 1) ≤ 2 * (make_move s m).p2_score) := by
      rw [hlen']
      simp only [is_over, Bool.or_eq_false_iff, decide_eq_false_iff_not] at hnotover
      exact not_or.mpr hnotover
    rw [get_possible_moves_eq s hth, get_possible_moves_eq (make_move s m) hth',
      flatRows_make_move, filter_updCells m (curPlayer s) (curPlayer_unclaimedB s),
      filter_and_eq_filter_filter]
    have hcount_le : (flatRows s).count m ≤ 1 := Reachable_StInv h |>.2.2.2.2.2.2.2.2 m hmem hu
    have hcount_filter : ((flatRows s).filter unclaimedB).count m = (flatRows s).count m :=
      List.count_filter hu
    have hmemf : m ∈ (flatRows s).filter unclaimedB := List.mem_filter.mpr ⟨hmem, hu⟩
    have hpos : 1 ≤ ((flatRows s).filter unclaimedB).count m := List.count_pos_iff.mpr hmemf
    have := length_filter_ne m ((flatRows s).filter unclaimedB)
    omega
  · intro hover
    exact moves_nil_of_over hlen' hover

theorem c8_move_shrinkage_witness :
    (get_possible_moves (make_move init2 "A")).length + 1 =
      (get_possible_moves init2).length :=
  (c8_move_shrinkage 2 init2 "A" (Reachable.init true init2 (by decide))
    (by decide)).1 (by decide)

/-! ## Claim theorems: heuristic and terminal scoring -/

theorem roLoop_bounds (s : StonehengeState) :
    ∀ (l : List String) (ow : Bool), -1 ≤ roLoop s l ow ∧ roLoop s l ow ≤ 1 := by
  intro l
  induction l with
  | nil =>
    intro ow
    unfold roLoop LOSE DRAW
    split <;> constructor <;> omega
  | cons mv rest ih =>
    intro ow
    rw [roLoop]
    split
    · unfold WIN; constructor <;> omega
    · split
      · exact ih false
      · exact ih ow

/-- C9: `rough_outcome` always returns a value in `[-1, 1]`, and returns
exactly `-1` whenever `get_possible_moves` is empty. -/
theorem c9_rough_outcome_bounds (s : StonehengeState) :
    (-1 ≤ rough_outcome s ∧ rough_outcome s ≤ 1) ∧
    (get_possible_moves s = [] → rough_outcome s = -1) := by
  constructor
  · rw [rough_outcome]
    split
    · unfold LOSE; constructor <;> omega
    · exact roLoop_bounds s (get_possible_moves s) true
  · intro h
    rw [rough_outcome, if_pos h]
    rfl

theorem c9_rough_outcome_bounds_witness :
    (-1 ≤ rough_outcome term1 ∧ rough_outcome term1 ≤ 1) ∧
    rough_outcome term1 = -1 :=
  ⟨(c9_rough_outcome_bounds term1).1, (c9_rough_outcome_bounds term1).2 (by decide)⟩

/-- C10: at every terminal state exactly one of `is_winner('p1')`,
`is_winner('p2')` holds — the non-current-turn player — so the terminal
score computed by `max_score` and by `minimax_iterative`'s terminal branch
is always `-1` for the player to move; their draw branches (score 0) are
never taken. -/
theorem c10_terminal_winner (N : Nat) (s : StonehengeState) (h : is_over N s = true) :
    is_winner N s "p1" = !(is_winner N s "p2") ∧
    is_winner N s (if s.p1_turn then "p2" else "p1") = true ∧
    termScore N s = -1 ∧ termScoreIter N s = -1 := by
  refine ⟨?_, ?_, termScore_of_over h, termScoreIter_of_over h⟩
  · unfold is_winner get_current_player_name
    cases hp : s.p1_turn <;> simp [h]
  · unfold is_winner get_current_player_name
    cases hp : s.p1_turn <;> simp [h, hp]

theorem c10_terminal_winner_witness :
    is_winner 1 term1 "p1" = !(is_winner 1 term1 "p2") ∧
    is_winner 1 term1 (if term1.p1_turn then "p2" else "p1") = true ∧
    termScore 1 term1 = -1 ∧ termScoreIter 1 term1 = -1 :=
  c10_terminal_winner 1 term1 (by decide)

/-! ## Properties of the optional list evaluation and of maxima -/

theorem mapO_congr {α β : Type} {f g : α → Option β} :
    ∀ {l : List α}, (∀ a ∈ l, f a = g a) → mapO f l = mapO g l := by
  intro l
  induction l with
  | nil => intro _; rfl
  | cons a l ih =>
    intro h
    rw [mapO, mapO, h a (List.mem_cons_self _ _), ih (fun x hx => h x (List.mem_cons_of_mem _ hx))]

theorem mapO_length {α β : Type} {f : α → Option β} :
    ∀ {l : List α} {bs : List β}, mapO f l = some bs → bs.length = l.length := by
  intro l
  induction l with
  | nil =>
    intro bs h
    injection h with h
    rw [← h]
    rfl
  | cons a l ih =>
    intro bs h
    rw [mapO] at h
    cases hf : f a with
    | none => rw [hf] at h; cases h
    | some b =>
      rw [hf] at h
      cases hm : mapO f l with
      | none => rw [hm] at h; cases h
      | some bs' =>
        rw [hm] at h
        injection h with h
        rw [← h, List.length_cons, List.length_cons, ih hm]

theorem mapO_some_of_forall {α β : Type} {f : α → Option β} :
    ∀ {l : List α}, (∀ a ∈ l, ∃ b, f a = some b) → ∃ bs, mapO f l = some bs := by
  intro l
  induction l with
  | nil => intro _; exact ⟨[], rfl⟩
  | cons a l ih =>
    intro h
    obtain ⟨b, hb⟩ := h a (List.mem_cons_self _ _)
    obtain ⟨bs, hbs⟩ := ih (fun x hx => h x (List.mem_cons_of_mem _ hx))
    exact ⟨b :: bs, by rw [mapO, hb, hbs]; rfl⟩

theorem mapO_get {α β : Type} {f : α → Option β} :
    ∀ {l : List α} {bs : List β}, mapO f l = some bs →
      ∀ (j : Nat) (hj : j < l.length) (hj' : j < bs.length),
        f (l.get ⟨j, hj⟩) = some (bs.get ⟨j, hj'⟩) := by
  intro l
  induction l with
  | nil => intro bs _ j hj; exact absurd hj (by simp)
  | cons a l ih =>
    intro bs h j hj hj'
    rw [mapO] at h
    cases hf : f a with
    | none => rw [hf] at h; cases h
    | some b =>
      rw [hf] at h
      cases hm : mapO f l with
      | none => rw [hm] at h; cases h
      | some bs' =>
        rw [hm] at h
        injection h with h
        subst h
        cases j with
        | zero => exact hf
        | succ j => exact ih hm j (by simpa using hj) (by simpa using hj')

theorem mapO_mem {α β : Type} {f : α → Option β} :
    ∀ {l : List α} {bs : List β}, mapO f l = some bs →
      ∀ b ∈ bs, ∃ a ∈ l, f a = some b := by
  intro l
  induction l with
  | nil =>
    intro bs h b hb
    injection h with h
    rw [← h] at hb
    exact absurd hb (List.not_mem_nil _)
  | cons a l ih =>
    intro bs h b hb
    rw [mapO] at h
    cases hf : f a with
    | none => rw [hf] at h; cases h
    | some b' =>
      rw [hf] at h
      cases hm : mapO f l with
      | none => rw [hm] at h; cases h
      | some bs' =>
        rw [hm] at h
        injection h with h
        subst h
        rcases List.mem_cons.mp hb with hb | hb
        · exact ⟨a, List.mem_cons_self _ _, by rw [hf, hb]⟩
        · obtain ⟨x, hx, hfx⟩ := ih hm b hb
          exact ⟨x, List.mem_cons_of_mem _ hx, hfx⟩

theorem foldl_max_le (xs : List Int) : ∀ (x : Int),
    x ≤ xs.foldl max x ∧ ∀ y ∈ xs, y ≤ xs.foldl max x := by
  induction xs with
  | nil => intro x; exact ⟨le_refl x, by intro y hy; exact absurd hy (List.not_mem_nil _)⟩
  | cons z xs ih =>
    intro x
    rw [List.foldl_cons]
    obtain ⟨h1, h2⟩ := ih (max x z)
    refine ⟨le_trans (le_max_left x z) h1, ?_⟩
    intro y hy
    rcases List.mem_cons.mp hy with hy | hy
    · rw [hy]
      exact le_trans (le_max_right x z) h1
    · exact h2 y hy

theorem max?_spec {l : List Int} {a : Int} (h : l.max? = some a) :
    a ∈ l ∧ ∀ x ∈ l, x ≤ a := by
  refine ⟨List.max?_mem max_choice h, ?_⟩
  cases l with
  | nil => cases h
  | cons z xs =>
    have : (z :: xs).max? = some (xs.foldl max z) := rfl
    rw [this] at h
    injection h with h
    subst h
    intro x hx
    rcases List.mem_cons.mp hx with hx | hx
    · rw [hx]
      exact (foldl_max_le xs z).1
    · exact (foldl_max_le xs z).2 x hx

theorem max?_isSome_of_ne_nil {l : List Int} (h : l ≠ []) : ∃ a, l.max? = some a := by
  cases l with
  | nil => exact absurd rfl h
  | cons z xs => exact ⟨xs.foldl max z, rfl⟩

/-! ## Fuel invariance and definedness of max_score -/

theorem max_score_succ (f len : Nat) (s : StonehengeState) :
    max_score (f + 1) len s =
      if is_over len s then some (termScore len s)
      else
        (mapO (fun x => (max_score f len (make_move s x)).map (fun v => -1 * v))
          (get_possible_moves s)).bind List.max? := rfl

/-- Fuel invariance: any fuel above the number of unclaimed cells computes
the same value as the canonical fuel, so the fuelled `max_score` is a
faithful rendering of the source's unbounded recursion. -/
theorem max_score_stable : ∀ (K : Nat) (s : StonehengeState), countUnclaimed s ≤ K →
    ∀ (len fuel : Nat), countUnclaimed s < fuel →
      max_score fuel len s = max_scoreC len s := by
  intro K
  induction K with
  | zero =>
    intro s hsK len fuel hfuel
    obtain ⟨f, rfl⟩ : ∃ f, fuel = f + 1 := ⟨fuel - 1, by omega⟩
    rw [max_scoreC, show countUnclaimed s + 1 = 0 + 1 from by omega]
    rw [max_score_succ, max_score_succ]
    by_cases hov : is_over len s
    · rw [if_pos hov, if_pos hov]
    · rw [if_neg hov, if_neg hov]
      have hmoves : get_possible_moves s = [] := by
        by_cases hth : 3 * (s.length + 1) ≤ 2 * s.p1_score ∨
            3 * (s.length + 1) ≤ 2 * s.p2_score
        · rw [get_possible_moves, if_pos hth]
        · rw [get_possible_moves_eq s hth]
          have : countUnclaimed s = 0 := by omega
          exact List.length_eq_zero.mp this
      rw [hmoves]
      rfl
  | succ K ih =>
    intro s hsK len fuel hfuel
    obtain ⟨f, rfl⟩ : ∃ f, fuel = f + 1 := ⟨fuel - 1, by omega⟩
    rw [max_scoreC, max_score_succ, max_score_succ]
    by_cases hov : is_over len s
    · rw [if_pos hov, if_pos hov]
    · rw [if_neg hov, if_neg hov]
      have hcong : ∀ m ∈ get_possible_moves s,
          (fun x => (max_score f len (make_move s x)).map (fun v => -1 * v)) m =
          (fun x => (max_score (countUnclaimed s) len (make_move s x)).map
            (fun v => -1 * v)) m := by
        intro m hm
        have hlt := countUnclaimed_make_move_lt hm
        have h1 : max_score f len (make_move s m) = max_scoreC len (make_move s m) :=
          ih (make_move s m) (by omega) len f (by omega)
        have h2 : max_score (countUnclaimed s) len (make_move s m) =
            max_scoreC len (make_move s m) :=
          ih (make_move s m) (by omega) len (countUnclaimed s) (by omega)
        simp only [h1, h2]
      rw [mapO_congr hcong]

/-- On invariant-satisfying states `max_score` is defined and returns a
definite game value `-1` or `1` (the draw value 0 never arises). -/
theorem max_score_some : ∀ (K : Nat) (s : StonehengeState), countUnclaimed s ≤ K →
    ∀ (N : Nat), StInv N s → ∃ v, max_scoreC N s = some v ∧ (v = -1 ∨ v = 1) := by
  intro K
  induction K with
  | zero =>
    intro s hsK N hInv
    have hmoves : get_possible_moves s = [] := by
      by_cases hth : 3 * (s.length + 1) ≤ 2 * s.p1_score ∨
          3 * (s.length + 1) ≤ 2 * s.p2_score
      · rw [get_possible_moves, if_pos hth]
      · rw [get_possible_moves_eq s hth]
        have : countUnclaimed s = 0 := by omega
        exact List.length_eq_zero.mp this
    have hov : is_over N s = true := is_over_of_moves_nil hInv hmoves
    refine ⟨-1, ?_, Or.inl rfl⟩
    rw [max_scoreC, max_score_succ, if_pos hov, termScore_of_over hov]
  | succ K ih =>
    intro s hsK N hInv
    by_cases hov : is_over N s = true
    · refine ⟨-1, ?_, Or.inl rfl⟩
      rw [max_scoreC, max_score_succ, if_pos hov, termScore_of_over hov]
    · have hmoves_ne : get_possible_moves s ≠ [] := by
        intro hnil
        exact hov (is_over_of_moves_nil hInv hnil)
      have hchild : ∀ m ∈ get_possible_moves s,
          ∃ b, (max_score (countUnclaimed s) N (make_move s m)).map
            (fun v => -1 * v) = some b ∧ (b = -1 ∨ b = 1) := by
        intro m hm
        have hlt := countUnclaimed_make_move_lt hm
        obtain ⟨v, hv, hvr⟩ := ih (make_move s m) (by omega) N (StInv_step hInv hm)
        have hst : max_score (countUnclaimed s) N (make_move s m) =
            max_scoreC N (make_move s m) :=
          max_score_stable K (make_move s m) (by omega) N (countUnclaimed s) (by omega)
        refine ⟨-1 * v, by rw [hst, hv]; rfl, ?_⟩
        rcases hvr with h | h <;> rw [h]
        · exact Or.inr (by norm_num)
        · exact Or.inl (by norm_num)
      obtain ⟨bs, hbs⟩ := mapO_some_of_forall (fun a ha => ⟨(hchild a ha).choose,
        (hchild a ha).choose_spec.1⟩)
      have hbs_ne : bs ≠ [] := by
        intro hnil
        have := mapO_length hbs
        rw [hnil] at this
        cases hmm : get_possible_moves s with
        | nil => exact hmoves_ne hmm
        | cons x xs => rw [hmm] at this; simp at this
      obtain ⟨mx, hmx⟩ := max?_isSome_of_ne_nil hbs_ne
      have hmx_mem := (max?_spec hmx).1
      obtain ⟨a, ha, hfa⟩ := mapO_mem hbs mx hmx_mem
      obtain ⟨b, hb, hbr⟩ := hchild a ha
      rw [hfa] at hb
      injection hb with hb
      refine ⟨mx, ?_, by rw [hb]; exact hbr⟩
      rw [max_scoreC, max_score_succ, if_neg hov, hbs]
      simpa using hmx

/-! ## Claim C2: what move minimax_recursive returns -/

/-- C2 counterexample: at the reachable non-terminal state `cs2`,
`minimax_recursive` returns `"C"`, but under the specification's literal
recurrence `value(state) = -1 * max over m of value(child)` (`specValue`),
the mover's value `-1 * value(child)` of `"C"` is `-1` while legal move
`"F"` scores `1`: the returned move does not maximize the claimed value. -/
theorem c2_counterexample :
    Reachable 2 cs2 ∧
    minimax_recursive 2 cs2 = some "C" ∧
    "F" ∈ get_possible_moves cs2 ∧
    specValueC 2 (make_move cs2 "C") = some 1 ∧
    specValueC 2 (make_move cs2 "F") = some (-1) ∧
    ¬ (∀ m ∈ get_possible_moves cs2, ∀ vm vr : Int,
        specValueC 2 (make_move cs2 m) = some vm →
        specValueC 2 (make_move cs2 "C") = some vr →
        -1 * vm ≤ -1 * vr) := by
  refine ⟨?_, by decide, by decide, by decide, by decide, ?_⟩
  · exact Reachable.step _ "D" (Reachable.step _ "B" (Reachable.step _ "A"
      (Reachable.init true init2 (by decide)) (by decide)) (by decide)) (by decide)
  · intro hcontr
    have := hcontr "F" (by decide) (-1) 1 (by decide) (by decide)
    norm_num at this

/-- C2 (amended): `minimax_recursive` returns a legal move maximizing the
mover's exact negamax value, where the recurrence puts the negation inside
the maximum — `value(state) = max over m of (-1 * value(make_move(state, m)))`
(this is `max_score`) — and terminal states are scored by the shared rule
(+1 if the side to move is the winner, -1 if the loser, 0 on a draw),
under exhaustive search to every terminal leaf. -/
theorem c2_recursive_returns_best (N : Nat) (s : StonehengeState) (mr : String)
    (h : minimax_recursive N s = some mr) :
    mr ∈ get_possible_moves s ∧
    ∀ m ∈ get_possible_moves s, ∀ vm vr : Int,
      max_scoreC N (make_move s m) = some vm →
      max_scoreC N (make_move s mr) = some vr →
      -1 * vm ≤ -1 * vr := by
  rw [minimax_recursive] at h
  cases hms : mapO (fun x => (max_scoreC N (make_move s x)).map (fun v => -1 * v))
      (get_possible_moves s) with
  | none => rw [hms] at h; cases h
  | some scores =>
    rw [hms, Option.some_bind] at h
    cases hmx : scores.max? with
    | none => rw [hmx] at h; cases h
    | some mx =>
      rw [hmx, Option.some_bind] at h
      have hmem_mx : mx ∈ scores := (max?_spec hmx).1
      have hidx : scores.indexOf mx < scores.length :=
        List.indexOf_lt_length.mpr hmem_mx
      have hlen := mapO_length hms
      have hidx' : scores.indexOf mx < (get_possible_moves s).length := by omega
      rw [List.getElem?_eq_getElem hidx'] at h
      injection h with h
      have hmr_get : (get_possible_moves s).get ⟨scores.indexOf mx, hidx'⟩ = mr := h
      constructor
      · rw [← hmr_get]
        exact List.get_mem _ _ _
      · intro m hm vm vr hvm hvr
      -- the value of the returned move is the maximal score mx
        have hg_idx := mapO_get hms (scores.indexOf mx) hidx' hidx
        rw [hmr_get, List.indexOf_get hidx, hvr] at hg_idx
        have hvr_mx : -1 * vr = mx := by
          injection hg_idx
        obtain ⟨n, hn⟩ := List.mem_iff_get.mp hm
        have hn2 : (n : Nat) < scores.length := by omega
        have hg_n := mapO_get hms n.1 n.2 hn2
        rw [hn, hvm] at hg_n
        have hvm_n : -1 * vm = scores.get ⟨n.1, hn2⟩ := by
          injection hg_n
        rw [hvm_n, hvr_mx]
        exact (max?_spec hmx).2 _ (List.get_mem _ _ _)

theorem c2_recursive_returns_best_witness :
    "A" ∈ get_possible_moves init1 ∧ (-1 : Int) * (-1) ≤ -1 * (-1) := by
  have h := c2_recursive_returns_best 1 init1 "A" (by decide)
  exact ⟨h.1, h.2 "B" (by decide) (-1) (-1) (by decide) (by decide)⟩

/-! ## Claim C6: deep-copy-then-mutate on an explicit heap

Python's `make_move` mutates region lists in place, but only ever the fresh
lists produced by `copy.deepcopy(self.cur_board)`.  To state immutability
of the receiver faithfully we model object identity explicitly: a heap of
region records (`List Region`, index = reference), states holding
references, deep copy as allocation of fresh records, and `move_to_board`
as a heap write at the copied reference. -/

theorem hApplyLines_frame :
    ∀ (refs : List Nat) (h : List Region) (sc : Nat × Nat) (mv cur : String)
      (h2 : List Region) (sc2 : Nat × Nat),
    hApplyLines h sc refs mv cur = some (h2, sc2) →
    (∀ i : Nat, (∀ r ∈ refs, i ≠ r) → h2[i]? = h[i]?) ∧ h2.length = h.length := by
  intro refs
  induction refs with
  | nil =>
    intro h sc mv cur h2 sc2 hrun
    rw [hApplyLines] at hrun
    injection hrun with hrun
    injection hrun with hrun1 hrun2
    subst hrun1
    exact ⟨fun i _ => rfl, rfl⟩
  | cons rref rest ih =>
    intro h sc mv cur h2 sc2 hrun
    rw [hApplyLines] at hrun
    cases hreg : h[rref]? with
    | none => rw [hreg] at hrun; cases hrun
    | some reg =>
      rw [hreg, Option.some_bind] at hrun
      obtain ⟨hframe, hlen⟩ := ih (h.set rref (move_to_board sc reg mv cur).1)
        (move_to_board sc reg mv cur).2 mv cur h2 sc2 (by
          rw [← hrun])
      constructor
      · intro i hi
        rw [hframe i (fun r hr => hi r (List.mem_cons_of_mem _ hr)),
          List.getElem?_set_ne (Ne.symm (hi rref (List.mem_cons_self _ _)))]
      · rw [hlen, List.length_set]

theorem allocCopies_spec {h h1 : List Region} {refs refs' : List Nat}
    (halloc : allocCopies h refs = some (h1, refs')) :
    (∀ i : Nat, i < h.length → h1[i]? = h[i]?) ∧ h.length ≤ h1.length ∧
    (∀ r' ∈ refs', h.length ≤ r' ∧ r' < h1.length) := by
  rw [allocCopies] at halloc
  cases hd : deref h refs with
  | none => rw [hd] at halloc; cases halloc
  | some rs =>
    rw [hd] at halloc
    injection halloc with halloc
    injection halloc with h1eq refs'eq
    subst h1eq
    refine ⟨?_, by simp, ?_⟩
    · intro i hi
      rw [List.getElem?_append, if_pos hi]
    · intro r' hr'
      rw [← refs'eq] at hr'
      obtain ⟨j, hj, hjr⟩ := List.mem_map.mp hr'
      rw [List.mem_range] at hj
      subst hjr
      simp
      omega

/-- C6: on the heap model, `s2 = s1.make_move(m)` leaves every record
referenced by `s1` untouched (its board is byte-for-byte unchanged; its
score and turn fields live in the immutable `s1` record itself), and `s2`
is fully independent: every reference it holds is freshly allocated, so no
later use of `s2` can reach a record of `s1`. -/
theorem c6_immutability (h : List Region) (s : HeapState) (mv : String)
    (out : List Region × HeapState)
    (hvalid : ∀ r ∈ allRefs s, r < h.length)
    (hm : hMakeMove h s mv = some out) :
    (∀ r ∈ allRefs s, out.1[r]? = h[r]?) ∧
    (∀ r' ∈ allRefs out.2, h.length ≤ r') ∧
    deref out.1 (allRefs s) = deref h (allRefs s) := by
  rw [hMakeMove] at hm
  cases ha1 : allocCopies h s.rowRefs with
  | none => rw [ha1] at hm; cases hm
  | some p1 =>
    rw [ha1, Option.some_bind] at hm
    cases ha2 : allocCopies p1.1 s.leftRefs with
    | none => rw [ha2] at hm; cases hm
    | some p2 =>
      rw [ha2, Option.some_bind] at hm
      cases ha3 : allocCopies p2.1 s.rightRefs with
      | none => rw [ha3] at hm; cases hm
      | some p3 =>
        rw [ha3, Option.some_bind] at hm
        cases hq1 : hApplyLines p3.1 (s.p1_score, s.p2_score) p1.2 mv
            (if s.p1_turn then "1" else "2") with
        | none => rw [hq1] at hm; cases hm
        | some q1 =>
          rw [hq1, Option.some_bind] at hm
          cases hq2 : hApplyLines q1.1 q1.2 p2.2 mv
              (if s.p1_turn then "1" else "2") with
          | none => rw [hq2] at hm; cases hm
          | some q2 =>
            rw [hq2, Option.some_bind] at hm
            cases hq3 : hApplyLines q2.1 q2.2 p3.2 mv
                (if s.p1_turn then "1" else "2") with
            | none => rw [hq3] at hm; cases hm
            | some q3 =>
              rw [hq3] at hm
              injection hm with hm
              obtain ⟨hs1, hl1, hf1⟩ := allocCopies_spec ha1
              obtain ⟨hs2, hl2, hf2⟩ := allocCopies_spec ha2
              obtain ⟨hs3, hl3, hf3⟩ := allocCopies_spec ha3
              obtain ⟨hw1, hwl1⟩ := hApplyLines_frame p1.2 p3.1 _ mv _ q1.1 q1.2
                (by rw [hq1])
              obtain ⟨hw2, hwl2⟩ := hApplyLines_frame p2.2 q1.1 _ mv _ q2.1 q2.2
                (by rw [hq2])
              obtain ⟨hw3, hwl3⟩ := hApplyLines_frame p3.2 q2.1 _ mv _ q3.1 q3.2
                (by rw [hq3])
              have hold : ∀ r ∈ allRefs s, out.1[r]? = h[r]? := by
                intro r hr
                have hrlt : r < h.length := hvalid r hr
                have e3 : q3.1[r]? = q2.1[r]? := hw3 r (fun r' hr' =>
                  by have := (hf3 r' hr').1; omega)
                have e2 : q2.1[r]? = q1.1[r]? := hw2 r (fun r' hr' =>
                  by have := (hf2 r' hr').1; omega)
                have e1 : q1.1[r]? = p3.1[r]? := hw1 r (fun r' hr' =>
                  by have := (hf1 r' hr').1; omega)
                have e0 : p3.1[r]? = p2.1[r]? := hs3 r (by omega)
                have e0' : p2.1[r]? = p1.1[r]? := hs2 r (by omega)
                have e0'' : p1.1[r]? = h[r]? := hs1 r hrlt
                rw [← hm]
                dsimp only
                rw [e3, e2, e1, e0, e0', e0'']
              refine ⟨hold, ?_, ?_⟩
              · intro r' hr'
                rw [← hm] at hr'
                rw [allRefs] at hr'
                rcases List.mem_append.mp hr' with h12 | h3
                · rcases List.mem_append.mp h12 with h1 | h2
                  · exact (hf1 r' h1).1
                  · have := (hf2 r' h2).1; omega
                · have := (hf3 r' h3).1; omega
              · rw [deref]
                exact mapO_congr (fun r hr => hold r hr)

theorem c6_immutability_witness :
    (∀ r ∈ allRefs hs0, hout0.1[r]? = heap0[r]?) ∧
    (∀ r' ∈ allRefs hout0.2, heap0.length ≤ r') ∧
    deref hout0.1 (allRefs hs0) = deref heap0 (allRefs hs0) :=
  c6_immutability heap0 hs0 "A" hout0 (by decide) (by decide)

/-! ## Small-step machine lemmas for minimax_iterative -/

theorem steps_add (len : Nat) :
    ∀ (n1 n2 : Nat) (m : Machine),
      steps (n1 + n2) len m = (steps n1 len m).bind (steps n2 len) := by
  intro n1
  induction n1 with
  | zero =>
    intro n2 m
    rw [show (0 + n2 : Nat) = n2 from by omega]
    rfl
  | succ n1 ih =>
    intro n2 m
    rw [show (n1 + 1 + n2 : Nat) = (n1 + n2) + 1 from by omega]
    rw [steps, steps]
    cases hs : step len m with
    | none => rfl
    | some m1 =>
      rw [Option.some_bind, Option.some_bind, ih]

theorem run_of_steps (len : Nat) :
    ∀ (n : Nat) (m m' : Machine), steps n len m = some m' → m'.stack = [] →
      ∀ fuel, n ≤ fuel → run fuel len m = some m' := by
  intro n
  induction n with
  | zero =>
    intro m m' hsteps hstack fuel _
    injection hsteps with hsteps
    subst hsteps
    cases fuel with
    | zero => rw [run, if_pos hstack]
    | succ f => rw [run, if_pos hstack]
  | succ n ih =>
    intro m m' hsteps hstack fuel hfuel
    rw [steps] at hsteps
    cases hstep : step len m with
    | none => rw [hstep] at hsteps; cases hsteps
    | some m1 =>
      rw [hstep, Option.some_bind] at hsteps
      have hne : m.stack ≠ [] := by
        intro hnil
        obtain ⟨nodes, stack⟩ := m
        simp only at hnil
        subst hnil
        rw [step] at hstep
        cases hstep
      obtain ⟨f, rfl⟩ : ∃ f, fuel = f + 1 := ⟨fuel - 1, by omega⟩
      rw [run, if_neg hne, hstep, Option.some_bind]
      exact ih m1 m' hsteps hstack f (by omega)

theorem step_of_over {len : Nat} {m : Machine} {t : Nat} {rest : List Nat}
    {nd : Node} (hstack : m.stack = t :: rest) (hnd : m.nodes[t]? = some nd)
    (hov : is_over len nd.value = true) :
    step len m =
      some ⟨m.nodes.set t ⟨nd.value, nd.children, some (termScoreIter len nd.value)⟩,
            rest⟩ := by
  obtain ⟨nodes, stack⟩ := m
  simp only at hstack hnd
  subst hstack
  rw [step]
  simp only
  rw [hnd, Option.some_bind, if_pos hov]

theorem step_of_expand {len : Nat} {m : Machine} {t : Nat} {rest : List Nat}
    {nd : Node} (hstack : m.stack = t :: rest) (hnd : m.nodes[t]? = some nd)
    (hov : is_over len nd.value = false) (hch : nd.children = []) :
    step len m =
      some ⟨(m.nodes.set t
              ⟨nd.value,
               (List.range (get_possible_moves nd.value).length).map
                 (fun j => m.nodes.length + j), nd.score⟩) ++
              (get_possible_moves nd.value).map
                (fun mv => ⟨make_move nd.value mv, [], none⟩),
            ((List.range (get_possible_moves nd.value).length).map
               (fun j => m.nodes.length + j)).reverse ++ t :: rest⟩ := by
  obtain ⟨nodes, stack⟩ := m
  simp only at hstack hnd
  subst hstack
  rw [step]
  simp only
  rw [hnd, Option.some_bind, if_neg (by rw [hov]; exact Bool.false_ne_true), if_pos hch]

theorem step_of_aggregate {len : Nat} {m : Machine} {t : Nat} {rest : List Nat}
    {nd : Node} {cs : List Int} (hstack : m.stack = t :: rest)
    (hnd : m.nodes[t]? = some nd) (hov : is_over len nd.value = false)
    (hch : nd.children ≠ [])
    (hcs : mapO (fun c => (m.nodes[c]?).bind Node.score) nd.children = some cs) :
    step len m =
      some ⟨m.nodes.set t
              ⟨nd.value, nd.children,
               some ((((cs.map (fun v => -1 * v)) ++ [-1]).max?).getD 0)⟩,
            rest⟩ := by
  obtain ⟨nodes, stack⟩ := m
  simp only at hstack hnd hcs
  subst hstack
  rw [step]
  simp only
  rw [hnd, Option.some_bind, if_neg (by rw [hov]; exact Bool.false_ne_true),
    if_neg hch, hcs, Option.some_bind]

/-! ## More helpers for optional evaluation and Python max -/

theorem mapO_map_post {α β : Type} (f : β → β) (g : α → Option β) :
    ∀ {l : List α} {bs : List β}, mapO g l = some bs →
      mapO (fun x => (g x).map f) l = some (bs.map f) := by
  intro l
  induction l with
  | nil =>
    intro bs h
    injection h with h
    subst h
    rfl
  | cons a l ih =>
    intro bs h
    rw [mapO] at h
    cases hg : g a with
    | none => rw [hg] at h; cases h
    | some b =>
      rw [hg] at h
      cases hm : mapO g l with
      | none => rw [hm] at h; cases h
      | some bs' =>
        rw [hm] at h
        injection h with h
        subst h
        rw [mapO, hg, Option.map_some', Option.some_bind, ih hm]
        rfl

theorem mapO_ext_some {α γ : Type} {β : Type} {f : α → Option β} {g : γ → Option β} :
    ∀ (l1 : List α) (l2 : List γ), l1.length = l2.length →
      (∀ (j : Nat) (h1 : j < l1.length) (h2 : j < l2.length),
        ∃ b, f (l1.get ⟨j, h1⟩) = some b ∧ g (l2.get ⟨j, h2⟩) = some b) →
      ∃ bs, mapO f l1 = some bs ∧ mapO g l2 = some bs := by
  intro l1
  induction l1 with
  | nil =>
    intro l2 hlen _
    cases l2 with
    | nil => exact ⟨[], rfl, rfl⟩
    | cons c l2 => cases hlen
  | cons a l1 ih =>
    intro l2 hlen hpt
    cases l2 with
    | nil => cases hlen
    | cons c l2 =>
      obtain ⟨b, hfa, hgc⟩ := hpt 0 (by simp) (by simp)
      obtain ⟨bs, hbs1, hbs2⟩ := ih l2 (by simpa using hlen)
        (fun j h1 h2 => hpt (j + 1) (by simpa using h1) (by simpa using h2))
      have hfa' : f a = some b := hfa
      have hgc' : g c = some b := hgc
      refine ⟨b :: bs, ?_, ?_⟩
      · rw [mapO, hfa', Option.some_bind, hbs1]; rfl
      · rw [mapO, hgc', Option.some_bind, hbs2]; rfl

theorem mapO_map {α γ β : Type} (f : γ → Option β) (g : α → γ) (l : List α) :
    mapO f (l.map g) = mapO (fun a => f (g a)) l := by
  induction l with
  | nil => rfl
  | cons a l ih => rw [List.map_cons, mapO, mapO, ih]

/-- Python's `max(scores + [-1])`: when `scores` is nonempty and all its
entries are at least `-1`, the appended `-1` is inert. -/
theorem max?_append_neg_one {l : List Int} (hne : l ≠ []) (hb : ∀ x ∈ l, -1 ≤ x) :
    ∃ a, l.max? = some a ∧ (l ++ [-1]).max? = some a := by
  cases l with
  | nil => exact absurd rfl hne
  | cons z xs =>
    refine ⟨xs.foldl max z, rfl, ?_⟩
    have h1 : (z :: xs ++ [-1]).max? = some ((xs ++ [-1]).foldl max z) := rfl
    rw [h1, List.foldl_append]
    have h2 : -1 ≤ xs.foldl max z := by
      have := (foldl_max_le xs z).1
      have := hb z (List.mem_cons_self _ _)
      omega
    rw [List.foldl_cons, List.foldl_nil, max_eq_left h2]

/-! ## Simulation of the explicit-stack machine -/

/-- Settling a node holding an over state takes a single iteration. -/
theorem processNode_over {N : Nat} {s : StonehengeState} {mach : Machine}
    {t : Nat} {rest : List Nat} (hov : is_over N s = true)
    (hstack : mach.stack = t :: rest)
    (hnode : mach.nodes[t]? = some ⟨s, [], none⟩) : NodeDone N mach t rest s := by
  obtain ⟨htlt, -⟩ := List.getElem?_eq_some.mp hnode
  have hstep := step_of_over hstack hnode hov
  dsimp only at hstep
  refine ⟨1, ⟨mach.nodes.set t ⟨s, [], some (termScoreIter N s)⟩, rest⟩, [],
    termScoreIter N s, ?_, rfl, ?_, ?_, ?_, ?_, ?_⟩
  · rw [steps, hstep, Option.some_bind]
    rfl
  · dsimp only
    rw [List.length_set]
  · intro i hi hit
    dsimp only
    rw [List.getElem?_set_ne (fun he => hit he.symm)]
  · dsimp only
    rw [List.getElem?_set_self htlt]
  · rw [max_scoreC, max_score_succ, if_pos hov, termScore_of_over hov,
      termScoreIter_of_over hov]
  · intro hcontra
    rw [hov] at hcontra
    cases hcontra

/-- Processing a run of freshly pushed sibling nodes at the top of the
stack settles each of them in turn. -/
theorem processList (N K : Nat)
    (IH : ∀ (s' : StonehengeState), countUnclaimed s' ≤ K → StInv N s' →
      ∀ (mach : Machine) (t : Nat) (rest : List Nat), mach.stack = t :: rest →
        mach.nodes[t]? = some ⟨s', [], none⟩ → NodeDone N mach t rest s') :
    ∀ (ps : List Nat) (mach : Machine) (tail : List Nat),
      mach.stack = ps ++ tail → ps.Nodup →
      (∀ p ∈ ps, ∃ sp, mach.nodes[p]? = some ⟨sp, [], none⟩ ∧
        countUnclaimed sp ≤ K ∧ StInv N sp) →
      ∃ (n : Nat) (mach' : Machine),
        steps n N mach = some mach' ∧
        mach'.stack = tail ∧
        mach.nodes.length ≤ mach'.nodes.length ∧
        (∀ i : Nat, i < mach.nodes.length → (∀ p ∈ ps, i ≠ p) →
          mach'.nodes[i]? = mach.nodes[i]?) ∧
        (∀ p ∈ ps, ∀ sp : StonehengeState, mach.nodes[p]? = some ⟨sp, [], none⟩ →
          ∃ ch v, mach'.nodes[p]? = some ⟨sp, ch, some v⟩ ∧ max_scoreC N sp = some v) := by
  intro ps
  induction ps with
  | nil =>
    intro mach tail hstack _ _
    refine ⟨0, mach, rfl, by rw [hstack]; rfl, Nat.le_refl _, fun i _ _ => rfl, ?_⟩
    intro p hp
    exact absurd hp (List.not_mem_nil _)
  | cons p ps ihps =>
    intro mach tail hstack hnodup hps
    obtain ⟨hpnotin, hnodup'⟩ := List.nodup_cons.mp hnodup
    obtain ⟨sp, hsp, hspK, hspInv⟩ := hps p (List.mem_cons_self _ _)
    obtain ⟨hplt, -⟩ := List.getElem?_eq_some.mp hsp
    have hstack' : mach.stack = p :: (ps ++ tail) := by rw [hstack]; rfl
    obtain ⟨n1, mach1, ch, v, hsteps1, hstack1, hlen1, hframe1, hnode1, hM1, -⟩ :=
      IH sp hspK hspInv mach p (ps ++ tail) hstack' hsp
    have hps1 : ∀ q ∈ ps, ∃ sq, mach1.nodes[q]? = some ⟨sq, [], none⟩ ∧
        countUnclaimed sq ≤ K ∧ StInv N sq := by
      intro q hq
      obtain ⟨sq, hsq, hq1, hq2⟩ := hps q (List.mem_cons_of_mem _ hq)
      obtain ⟨hqlt, -⟩ := List.getElem?_eq_some.mp hsq
      have hqp : q ≠ p := fun he => hpnotin (he ▸ hq)
      exact ⟨sq, by rw [hframe1 q hqlt hqp]; exact hsq, hq1, hq2⟩
    obtain ⟨n2, mach2, hsteps2, hstack2, hlen2, hframe2, hdone2⟩ :=
      ihps mach1 tail hstack1 hnodup' hps1
    refine ⟨n1 + n2, mach2, ?_, hstack2, Nat.le_trans hlen1 hlen2, ?_, ?_⟩
    · rw [steps_add, hsteps1, Option.some_bind]
      exact hsteps2
    · intro i hi hine
      rw [hframe2 i (Nat.lt_of_lt_of_le hi hlen1)
        (fun q hq => hine q (List.mem_cons_of_mem _ hq)),
        hframe1 i hi (hine p (List.mem_cons_self _ _))]
    · intro q hq sq hsq
      rcases List.mem_cons.mp hq with he | hq'
      · subst he
        rw [hsp] at hsq
        injection hsq with hsq
        injection hsq with he1 he2 he3
        subst he1
        refine ⟨ch, v, ?_, hM1⟩
        rw [hframe2 q (Nat.lt_of_lt_of_le hplt hlen1) (fun q' hq' => fun he => hpnotin (he ▸ hq')),
          hnode1]
      · obtain ⟨hqlt, -⟩ := List.getElem?_eq_some.mp hsq
        have hqp : q ≠ p := fun he => hpnotin (he ▸ hq')
        exact hdone2 q hq' sq (by rw [hframe1 q hqlt hqp]; exact hsq)

theorem steps_one (len : Nat) (m : Machine) : steps 1 len m = step len m := by
  rw [steps]
  cases hs : step len m with
  | none => rfl
  | some m1 => rfl

/-- Fully processing a fresh node: by strong induction on the number of
unclaimed cells, the machine settles it with the recursive negamax value. -/
theorem processNode : ∀ (K : Nat) (s : StonehengeState), countUnclaimed s ≤ K →
    ∀ (N : Nat), StInv N s →
    ∀ (mach : Machine) (t : Nat) (rest : List Nat), mach.stack = t :: rest →
      mach.nodes[t]? = some ⟨s, [], none⟩ → NodeDone N mach t rest s := by
  intro K
  induction K with
  | zero =>
    intro s hK N hInv mach t rest hstack hnode
    have hmoves : get_possible_moves s = [] := by
      by_cases hth : 3 * (s.length + 1) ≤ 2 * s.p1_score ∨
          3 * (s.length + 1) ≤ 2 * s.p2_score
      · rw [get_possible_moves, if_pos hth]
      · rw [get_possible_moves_eq s hth]
        have hc0 : countUnclaimed s = 0 := by omega
        exact List.length_eq_zero.mp hc0
    exact processNode_over (is_over_of_moves_nil hInv hmoves) hstack hnode
  | succ K ih =>
    intro s hK N hInv mach t rest hstack hnode
    by_cases hov : is_over N s = true
    · exact processNode_over hov hstack hnode
    · have hovf : is_over N s = false := by
        cases h : is_over N s
        · rfl
        · exact absurd h hov
      have hmoves_ne : get_possible_moves s ≠ [] := fun hnil =>
        hov (is_over_of_moves_nil hInv hnil)
      obtain ⟨htlt, -⟩ := List.getElem?_eq_some.mp hnode
      have hstep1 : step N mach =
          some ⟨(mach.nodes.set t ⟨s, childIdxs mach.nodes.length s, none⟩) ++
                  freshNodes s,
                (childIdxs mach.nodes.length s).reverse ++ t :: rest⟩ :=
        step_of_expand hstack hnode hovf rfl
      have hsetlen : (mach.nodes.set t
          (⟨s, childIdxs mach.nodes.length s, none⟩ : Node)).length =
          mach.nodes.length := List.length_set _ _ _
      have hlenB : ((mach.nodes.set t ⟨s, childIdxs mach.nodes.length s, none⟩) ++
          freshNodes s).length =
          mach.nodes.length + (get_possible_moves s).length := by
        rw [List.length_append, hsetlen, freshNodes, List.length_map]
      have hidxmem : ∀ p ∈ childIdxs mach.nodes.length s,
          mach.nodes.length ≤ p ∧
            p < mach.nodes.length + (get_possible_moves s).length := by
        intro p hp
        obtain ⟨j, hj, rfl⟩ := List.mem_map.mp hp
        rw [List.mem_range] at hj
        omega
      have hnodup : (childIdxs mach.nodes.length s).reverse.Nodup :=
        List.nodup_reverse.mpr
          (List.Nodup.map (fun a b h => by omega) (List.nodup_range _))
      have hmach1at : ∀ (j : Nat) (hj : j < (get_possible_moves s).length),
          ((mach.nodes.set t ⟨s, childIdxs mach.nodes.length s, none⟩) ++
            freshNodes s)[mach.nodes.length + j]? =
          some ⟨make_move s ((get_possible_moves s).get ⟨j, hj⟩), [], none⟩ := by
        intro j hj
        rw [List.getElem?_append, if_neg (by rw [hsetlen]; omega),
          show mach.nodes.length + j -
              (mach.nodes.set t ⟨s, childIdxs mach.nodes.length s, none⟩).length = j
            from by rw [hsetlen]; omega,
          freshNodes, List.getElem?_map, List.getElem?_eq_getElem hj]
        rfl
      have hmach1t : ((mach.nodes.set t ⟨s, childIdxs mach.nodes.length s, none⟩) ++
          freshNodes s)[t]? = some ⟨s, childIdxs mach.nodes.length s, none⟩ := by
        rw [List.getElem?_append, if_pos (by rw [hsetlen]; exact htlt),
          List.getElem?_set_self htlt]
      have hps : ∀ p ∈ (childIdxs mach.nodes.length s).reverse, ∃ sp,
          (⟨(mach.nodes.set t ⟨s, childIdxs mach.nodes.length s, none⟩) ++
              freshNodes s,
            (childIdxs mach.nodes.length s).reverse ++ t :: rest⟩ :
              Machine).nodes[p]? = some ⟨sp, [], none⟩ ∧
          countUnclaimed sp ≤ K ∧ StInv N sp := by
        intro p hp
        rw [List.mem_reverse] at hp
        obtain ⟨j, hj, rfl⟩ := List.mem_map.mp hp
        rw [List.mem_range] at hj
        refine ⟨make_move s ((get_possible_moves s).get ⟨j, hj⟩),
          hmach1at j hj, ?_, ?_⟩
        · have := countUnclaimed_make_move_lt
            (List.get_mem (get_possible_moves s) j hj)
          omega
        · exact StInv_step hInv (List.get_mem _ _ _)
      obtain ⟨n2, mach2, hsteps2, hstack2, hlen2, hframe2, hdone2⟩ :=
        processList N K (fun s' h1 h2 => ih s' h1 N h2)
          (childIdxs mach.nodes.length s).reverse
          ⟨(mach.nodes.set t ⟨s, childIdxs mach.nodes.length s, none⟩) ++
            freshNodes s,
           (childIdxs mach.nodes.length s).reverse ++ t :: rest⟩
          (t :: rest) rfl hnodup hps
      have hlen2' : ((mach.nodes.set t ⟨s, childIdxs mach.nodes.length s, none⟩) ++
          freshNodes s).length ≤ mach2.nodes.length := hlen2
      have htlt1 : t < ((mach.nodes.set t ⟨s, childIdxs mach.nodes.length s, none⟩) ++
          freshNodes s).length := by
        rw [hlenB]
        omega
      have htne : ∀ p ∈ (childIdxs mach.nodes.length s).reverse, t ≠ p := by
        intro p hp
        rw [List.mem_reverse] at hp
        have := hidxmem p hp
        omega
      have hmach2t : mach2.nodes[t]? =
          some ⟨s, childIdxs mach.nodes.length s, none⟩ := by
        rw [hframe2 t htlt1 htne]
        exact hmach1t
      have hlen_idxs : (childIdxs mach.nodes.length s).length =
          (get_possible_moves s).length := by
        rw [childIdxs, List.length_map, List.length_range]
      have hchild_vals : ∀ (j : Nat) (h1 : j < (childIdxs mach.nodes.length s).length)
          (h2 : j < (get_possible_moves s).length),
          ∃ b, (fun c => (mach2.nodes[c]?).bind Node.score)
                 ((childIdxs mach.nodes.length s).get ⟨j, h1⟩) = some b ∧
               (fun mv => max_scoreC N (make_move s mv))
                 ((get_possible_moves s).get ⟨j, h2⟩) = some b := by
        intro j h1 h2
        have hget? : (childIdxs mach.nodes.length s)[j]? =
            some (mach.nodes.length + j) := by
          show ((List.range (get_possible_moves s).length).map
            (fun i => mach.nodes.length + i))[j]? = some (mach.nodes.length + j)
          rw [List.getElem?_map,
            List.getElem?_eq_getElem (by rw [List.length_range]; exact h2),
            List.getElem_range]
          rfl
        have hget : (childIdxs mach.nodes.length s).get ⟨j, h1⟩ =
            mach.nodes.length + j := by
          have h3 : (childIdxs mach.nodes.length s)[j]? =
              some ((childIdxs mach.nodes.length s).get ⟨j, h1⟩) :=
            List.getElem?_eq_getElem h1
          rw [hget?] at h3
          injection h3 with h3
          exact h3.symm
        have hpmem : (childIdxs mach.nodes.length s).get ⟨j, h1⟩ ∈
            (childIdxs mach.nodes.length s).reverse :=
          List.mem_reverse.mpr (List.get_mem _ _ _)
        obtain ⟨ch_j, v_j, hm2, hMj⟩ := hdone2 _ hpmem
          (make_move s ((get_possible_moves s).get ⟨j, h2⟩))
          (by rw [hget]; exact hmach1at j h2)
        refine ⟨v_j, ?_, hMj⟩
        show (mach2.nodes[(childIdxs mach.nodes.length s).get ⟨j, h1⟩]?).bind
          Node.score = some v_j
        rw [hm2]
        rfl
      obtain ⟨vs, hvs_idxs, hvs_moves⟩ :=
        @mapO_ext_some Nat String Int
          (fun c => (mach2.nodes[c]?).bind Node.score)
          (fun mv => max_scoreC N (make_move s mv))
          (childIdxs mach.nodes.length s) (get_possible_moves s)
          hlen_idxs hchild_vals
      have hidxs_ne : childIdxs mach.nodes.length s ≠ [] := by
        intro hnil
        have h0 := hlen_idxs
        rw [hnil] at h0
        exact hmoves_ne (List.length_eq_zero.mp h0.symm)
      have hvs_len : vs.length = (get_possible_moves s).length :=
        mapO_length hvs_moves
      have hvs_range : ∀ x ∈ vs, x = -1 ∨ x = 1 := by
        intro x hx
        obtain ⟨mv, hmv, hMx⟩ := mapO_mem hvs_moves x hx
        have hMx' : max_scoreC N (make_move s mv) = some x := hMx
        have hlt := countUnclaimed_make_move_lt hmv
        obtain ⟨v', hv', hr⟩ := max_score_some K (make_move s mv) (by omega) N
          (StInv_step hInv hmv)
        rw [hMx'] at hv'
        injection hv' with hv'
        rw [← hv'] at hr
        exact hr
      have hneg_bound : ∀ x ∈ vs.map (fun v => -1 * v), -1 ≤ x := by
        intro x hx
        obtain ⟨v, hv, rfl⟩ := List.mem_map.mp hx
        rcases hvs_range v hv with h | h <;> rw [h] <;> norm_num
      have hmapneg_ne : vs.map (fun v => -1 * v) ≠ [] := by
        intro hnil
        have hvnil : vs = [] := List.map_eq_nil_iff.mp hnil
        rw [hvnil] at hvs_len
        exact hmoves_ne (List.length_eq_zero.mp hvs_len.symm)
      obtain ⟨a, hmax1, hmax2⟩ := max?_append_neg_one hmapneg_ne hneg_bound
      have hbs : mapO (fun x => (max_scoreC N (make_move s x)).map
            (fun v => -1 * v)) (get_possible_moves s) =
          some (vs.map (fun v => -1 * v)) :=
        mapO_map_post (fun v => -1 * v) (fun mv => max_scoreC N (make_move s mv))
          hvs_moves
      have hM : max_scoreC N s = some a := by
        rw [max_scoreC, max_score_succ, if_neg hov]
        have hcong : ∀ m ∈ get_possible_moves s,
            (fun x => (max_score (countUnclaimed s) N (make_move s x)).map
              (fun v => -1 * v)) m =
            (fun x => (max_scoreC N (make_move s x)).map (fun v => -1 * v)) m := by
          intro mv hmv
          have hlt := countUnclaimed_make_move_lt hmv
          show (max_score (countUnclaimed s) N (make_move s mv)).map
              (fun v => -1 * v) =
            (max_scoreC N (make_move s mv)).map (fun v => -1 * v)
          rw [max_score_stable K (make_move s mv) (by omega) N (countUnclaimed s)
            (by omega)]
        rw [mapO_congr hcong, hbs, Option.some_bind, hmax1]
      have hstep3 : step N mach2 =
          some ⟨mach2.nodes.set t
                  ⟨s, childIdxs mach.nodes.length s,
                   some ((((vs.map (fun v => -1 * v)) ++ [-1]).max?).getD 0)⟩,
                rest⟩ :=
        step_of_aggregate hstack2 hmach2t hovf hidxs_ne hvs_idxs
      have hpyv : ((((vs.map (fun v => -1 * v)) ++ [-1]).max?).getD 0) = a := by
        rw [hmax2]
        rfl
      rw [hpyv] at hstep3
      refine ⟨1 + n2 + 1,
        ⟨mach2.nodes.set t ⟨s, childIdxs mach.nodes.length s, some a⟩, rest⟩,
        childIdxs mach.nodes.length s, a, ?_, rfl, ?_, ?_, ?_, hM, ?_⟩
      · rw [steps_add N (1 + n2) 1, steps_add N 1 n2, steps_one, hstep1,
          Option.some_bind, hsteps2, Option.some_bind, steps_one, hstep3]
      · dsimp only
        rw [List.length_set]
        rw [hlenB] at hlen2'
        omega
      · intro i hi hit
        dsimp only
        rw [List.getElem?_set_ne (fun he => hit he.symm)]
        have hilt1 : i < ((mach.nodes.set t ⟨s, childIdxs mach.nodes.length s,
            none⟩) ++ freshNodes s).length := by
          rw [hlenB]
          omega
        rw [hframe2 i hilt1 (by
          intro p hp
          rw [List.mem_reverse] at hp
          have := hidxmem p hp
          omega)]
        dsimp only
        rw [List.getElem?_append, if_pos (by rw [hsetlen]; omega),
          List.getElem?_set_ne (fun he => hit he.symm)]
      · dsimp only
        rw [List.getElem?_set_self (Nat.lt_of_lt_of_le htlt1 hlen2')]
      · intro _
        have hcong2 : mapO (fun c =>
              ((mach2.nodes.set t
                  ⟨s, childIdxs mach.nodes.length s, some a⟩)[c]?).bind Node.score)
              (childIdxs mach.nodes.length s) =
            mapO (fun c => (mach2.nodes[c]?).bind Node.score)
              (childIdxs mach.nodes.length s) := by
          apply mapO_congr
          intro c hc
          have hcb := hidxmem c hc
          show ((mach2.nodes.set t
              ⟨s, childIdxs mach.nodes.length s, some a⟩)[c]?).bind Node.score =
            (mach2.nodes[c]?).bind Node.score
          rw [List.getElem?_set_ne (by omega : t ≠ c)]
        dsimp only
        rw [hcong2, hvs_idxs, hvs_moves]

/-! ## Claim C1: equivalence of the two minimax strategies -/

/-- C1: on every reachable non-terminal state the recursive and the
iterative minimax agree: both are defined (for sufficient fuel), both
return a legal move, and the negamax values of the states reached by the
two chosen moves are equal (here the chosen labels even coincide, since
both strategies take the first index of the maximal score over the same
score list). -/
theorem c1_equivalence (N : Nat) (s : StonehengeState) (h : Reachable N s)
    (hov : is_over N s = false) :
    ∃ (fuel : Nat) (mr mi : String),
      minimax_recursive N s = some mr ∧
      minimax_iterative fuel N s = some mi ∧
      mr ∈ get_possible_moves s ∧ mi ∈ get_possible_moves s ∧
      max_scoreC N (make_move s mr) = max_scoreC N (make_move s mi) := by
  have hInv := Reachable_StInv h
  obtain ⟨n, mach', ch, v, hsteps, hstk, hlen, hframe, hroot, hMv, hch⟩ :=
    processNode (countUnclaimed s) s (Nat.le_refl _) N hInv
      ⟨[⟨s, [], none⟩], [0]⟩ 0 [] rfl rfl
  have hchEq := hch hov
  have hrun : run n N ⟨[⟨s, [], none⟩], [0]⟩ = some mach' :=
    run_of_steps N n _ mach' hsteps hstk n (Nat.le_refl n)
  have hmoves_ne : get_possible_moves s ≠ [] := fun hnil =>
    absurd (is_over_of_moves_nil hInv hnil) (by rw [hov]; exact Bool.false_ne_true)
  obtain ⟨cvs, hcvs⟩ : ∃ cvs,
      mapO (fun mv => max_scoreC N (make_move s mv)) (get_possible_moves s) =
        some cvs := by
    apply mapO_some_of_forall
    intro mv hmv
    obtain ⟨b, hb, -⟩ := max_score_some (countUnclaimed (make_move s mv))
      (make_move s mv) (Nat.le_refl _) N (StInv_step hInv hmv)
    exact ⟨b, hb⟩
  have hcvs_len : cvs.length = (get_possible_moves s).length := mapO_length hcvs
  have hscores_ne : cvs.map (fun v => -1 * v) ≠ [] := by
    intro hnil
    have hvnil : cvs = [] := List.map_eq_nil_iff.mp hnil
    rw [hvnil] at hcvs_len
    exact hmoves_ne (List.length_eq_zero.mp hcvs_len.symm)
  obtain ⟨mx, hmx⟩ := max?_isSome_of_ne_nil hscores_ne
  have hmxmem : mx ∈ cvs.map (fun v => -1 * v) :=
    List.max?_mem (fun a b => max_choice a b) hmx
  have hidxlt : (cvs.map (fun v => -1 * v)).indexOf mx <
      (get_possible_moves s).length := by
    have := List.indexOf_lt_length.mpr hmxmem
    rw [List.length_map] at this
    omega
  have hidxeq : (get_possible_moves s)[(cvs.map (fun v => -1 * v)).indexOf mx]? =
      some ((get_possible_moves s).get
        ⟨(cvs.map (fun v => -1 * v)).indexOf mx, hidxlt⟩) :=
    List.getElem?_eq_getElem hidxlt
  have hbs : mapO (fun x => (max_scoreC N (make_move s x)).map (fun v => -1 * v))
        (get_possible_moves s) = some (cvs.map (fun v => -1 * v)) :=
    mapO_map_post (fun v => -1 * v) (fun mv => max_scoreC N (make_move s mv)) hcvs
  refine ⟨n,
    (get_possible_moves s).get ⟨(cvs.map (fun v => -1 * v)).indexOf mx, hidxlt⟩,
    (get_possible_moves s).get ⟨(cvs.map (fun v => -1 * v)).indexOf mx, hidxlt⟩,
    ?_, ?_, List.get_mem _ _ _, List.get_mem _ _ _, rfl⟩
  · rw [minimax_recursive, hbs, Option.some_bind]
    rw [hmx, Option.some_bind]
    exact hidxeq
  · rw [minimax_iterative, hrun, Option.some_bind]
    dsimp only
    rw [hroot, Option.some_bind]
    dsimp only
    rw [hchEq, hcvs, Option.some_bind]
    rw [hmx, Option.some_bind]
    exact hidxeq

/-- Witness for C1 at the fresh side-length-1 game. -/
theorem c1_equivalence_witness :
    Reachable 1 init1 ∧ is_over 1 init1 = false ∧
    (∃ (fuel : Nat) (mr mi : String),
      minimax_recursive 1 init1 = some mr ∧
      minimax_iterative fuel 1 init1 = some mi ∧
      mr ∈ get_possible_moves init1 ∧ mi ∈ get_possible_moves init1 ∧
      max_scoreC 1 (make_move init1 mr) = max_scoreC 1 (make_move init1 mi)) :=
  ⟨Reachable.init true init1 (by decide), rfl,
   c1_equivalence 1 init1 (Reachable.init true init1 (by decide)) rfl⟩
